import Mathlib

/-!
# slot-list-compare: a shallow embedding of `main.go`

Slots and epochs are `uint64` in the program; here they are natural numbers, and every
`uint64` addition or multiplication that can wrap is written with an explicit `% 2 ^ 64`.
Slices are lists.  A run-time panic (an index out of range) and a loop that is still
running when its fuel is used up are reported as a `Fault`.
-/

namespace SlotListCompare

/-- The ways a run of the embedded code can fail to produce a value. -/
inductive Fault where
  /-- a slice was indexed outside `0 .. len-1` (a Go run-time panic) -/
  | indexOutOfRange
  /-- the loop had not finished when the fuel of the model ran out -/
  | outOfFuel
  deriving DecidableEq

/-- Equality of results is decidable, so closed runs can be evaluated. -/
instance instDecidableEqExcept {ε α : Type} [DecidableEq ε] [DecidableEq α] :
    DecidableEq (Except ε α)
  | .ok a, .ok b => if h : a = b then isTrue (by rw [h]) else isFalse (by intro c; cases c; exact h rfl)
  | .error a, .error b =>
    if h : a = b then isTrue (by rw [h]) else isFalse (by intro c; cases c; exact h rfl)
  | .ok _, .error _ => isFalse (by intro c; cases c)
  | .error _, .ok _ => isFalse (by intro c; cases c)

/-- Number of values of a `uint64`. -/
def U64 : Nat := 2 ^ 64

/-- The constant `EpochLen`. -/
def EpochLen : Nat := 432000

/-- Source `CalcEpochLimits`: `epochStart := epoch * EpochLen` and
`epochStop := epochStart + EpochLen - 1`, both in `uint64` arithmetic. -/
def CalcEpochLimits (epoch : Nat) : Nat × Nat :=
  let epochStart := (epoch * EpochLen) % U64
  let epochStop := (epochStart + EpochLen - 1) % U64
  (epochStart, epochStop)

/-- Source `CalcEpochForSlot`: `slot / EpochLen`. -/
def CalcEpochForSlot (slot : Nat) : Nat :=
  slot / EpochLen

/-- Source `removeIf`: the loop appends to `out` every item for which `remover` is false. -/
def removeIf (slice : List Nat) (remover : Nat → Bool) : List Nat :=
  slice.foldl (fun out item => if !remover item then out ++ [item] else out) []

/-- The loop of `sort.Search(n, f)` from the Go library, started at `i, j`:
`for i < j { h := int(uint(i+j) >> 1); if !f(h) { i = h + 1 } else { j = h } }; return i`.
The predicate `f` may fault (it indexes a slice). -/
def searchLoop (f : Nat → Except Fault Bool) : Nat → Nat → Nat → Except Fault Nat
  | 0, i, j => if i < j then .error .outOfFuel else .ok i
  | fuel + 1, i, j =>
    if i < j then
      let h := (i + j) / 2
      match f h with
      | .error e => .error e
      | .ok false => searchLoop f fuel (h + 1) j
      | .ok true => searchLoop f fuel i h
    else .ok i

/-- Library `sort.Search(n, f)`: the loop above from `i, j := 0, n`.  The interval `j - i`
shrinks at every iteration, so `n` iterations are enough fuel. -/
def sortSearch (n : Nat) (f : Nat → Except Fault Bool) : Except Fault Nat :=
  searchLoop f n 0 n

/-- Reading `a[i]` from a slice: a fault when `i` is out of range. -/
def index (a : List Nat) (i : Nat) : Except Fault Nat :=
  match a[i]? with
  | some v => .ok v
  | none => .error .indexOutOfRange

/-- The predicate `func(i int) bool { return a[i] >= x }` handed to `sort.Search`. -/
def geAt (a : List Nat) (x : Nat) (i : Nat) : Except Fault Bool :=
  (index a i).map (fun v => decide (v ≥ x))

/-- Source `SearchUint64`: `sort.Search(len(a), func(i int) bool { return a[i] >= x })`. -/
def SearchUint64 (a : List Nat) (x : Nat) : Except Fault Nat :=
  sortSearch a.length (geAt a x)

/-- Source `contains`:
`i := SearchUint64(slots, slot); return i < len(slots) && slots[i] == slot`. -/
def contains (slots : List Nat) (slot : Nat) : Except Fault Bool :=
  match SearchUint64 slots slot with
  | .error e => .error e
  | .ok i =>
    if i < slots.length then (index slots i).map (fun v => decide (v = slot))
    else .ok false

/-- The answer of `contains` as a plain boolean (`false` stands in for a fault, which
`contains_total` rules out). -/
def found (slots : List Nat) (slot : Nat) : Bool :=
  match contains slots slot with
  | .ok b => b
  | .error _ => false

/-- What `compare` prints: the two lists of slots and whether `No differences.` is absent. -/
structure Report where
  /-- slots printed under "blocks in faithful but not in solana" -/
  notInSolana : List Nat
  /-- slots printed under "blocks in solana but not in faithful" -/
  notInFaithful : List Nat
  /-- the flag `hasDiff`; `No differences.` is printed exactly when it is false -/
  hasDiff : Bool
  deriving DecidableEq

/-- The two collecting loops of `compare`:
`for _, block := range xs { if !contains(other, block) { out = append(out, block) } }`. -/
def collectMissing (other : List Nat) : List Nat → List Nat → Except Fault (List Nat)
  | [], out => .ok out
  | block :: rest, out =>
    match contains other block with
    | .error e => .error e
    | .ok false => collectMissing other rest (out ++ [block])
    | .ok true => collectMissing other rest out

/-- Source `compare`: collects the slots of each list that `contains` does not find in the other,
and sets `hasDiff` when one of the two collections is non-empty. -/
def compare (fromFaithful fromSolana : List Nat) : Except Fault Report :=
  match collectMissing fromSolana fromFaithful [] with
  | .error e => .error e
  | .ok notInSolana =>
    let hasDiff := false
    let hasDiff := if notInSolana.length > 0 then true else hasDiff
    match collectMissing fromFaithful fromSolana [] with
    | .error e => .error e
    | .ok notInFaithful =>
      let hasDiff := if notInFaithful.length > 0 then true else hasDiff
      .ok { notInSolana := notInSolana, notInFaithful := notInFaithful, hasDiff := hasDiff }

/-- The epoch filter of `main`:
`func(block uint64) bool { return CalcEpochForSlot(block) != epoch }`. -/
def notInEpoch (epoch : Nat) (block : Nat) : Bool :=
  CalcEpochForSlot block != epoch

/-- The reconciliation step of `main`: both lists go through
`removeIf` with the epoch filter and then through `compare`. -/
def reconcile (fromFaithful fromSolana : List Nat) (epoch : Nat) : Except Fault Report :=
  let fromFaithful := removeIf fromFaithful (notInEpoch epoch)
  let fromSolana := removeIf fromSolana (notInEpoch epoch)
  compare fromFaithful fromSolana

/-- Library `sort.Slice(blocks, func(i, j int) bool { return blocks[i] < blocks[j] })`.
The library routine leaves the slice as an ascending rearrangement of its elements; for
numbers under `<` there is exactly one such rearrangement (`sortSlice_unique` below), and
it is computed here by insertion. -/
def sortSlice (blocks : List Nat) : List Nat :=
  blocks.insertionSort (fun a b => a ≤ b)

/-- The loop of `uniqueBlocks` over an already sorted slice:
`for i := range blocks { if i == 0 || blocks[i] != blocks[i-1] { out = append(out, blocks[i]) } }`.
Every index read is in range: `i < len(blocks)`, and `i-1` is read only when `i != 0`. -/
def dedupLoop (blocks : List Nat) : List Nat :=
  (List.range blocks.length).foldl
    (fun out i =>
      if i = 0 ∨ blocks.getD i 0 ≠ blocks.getD (i - 1) 0 then out ++ [blocks.getD i 0] else out)
    []

/-- The slice `out` of `uniqueBlocks` after the first `k` iterations of its loop. -/
def dedupUpTo (blocks : List Nat) (k : Nat) : List Nat :=
  (List.range k).foldl
    (fun out i =>
      if i = 0 ∨ blocks.getD i 0 ≠ blocks.getD (i - 1) 0 then out ++ [blocks.getD i 0] else out)
    []

/-- Source `uniqueBlocks`: sort, then remove duplicates. -/
def uniqueBlocks (blocks : List Nat) : List Nat :=
  dedupLoop (sortSlice blocks)

/-- Type `rpc.BlocksResult`: the slots one `GetBlocks` request returns. -/
abbrev BlocksResult := List Nat

/-- Source `reduceBlocks`: appends every slot of every window result, then `uniqueBlocks`. -/
def reduceBlocks (blocks : List BlocksResult) : List Nat :=
  uniqueBlocks
    (blocks.foldl (fun out blocksResult => blocksResult.foldl (fun out block => out ++ [block]) out) [])

/-- The block source behind `client.GetBlocks(ctx, startSlot, &end, rpc.CommitmentFinalized)`:
the answer to the request for one window, a result or an error. -/
abbrev Source (ε : Type) := Nat → Nat → Except ε BlocksResult

/-- A run of `getAllBlocksBetween`. -/
structure FetchRun (ε : Type) where
  /-- the windows `(startSlot, end)` requested from the source, in the order issued -/
  requests : List (Nat × Nat)
  /-- what the function returned: `(nil, err)` is `.error err` and `(out, nil)` is `.ok out`;
  `none` when the loop was still running after the given number of iterations -/
  returned : Option (Except ε (List BlocksResult))

/-- The loop of `getAllBlocksBetween`, with the slice `out` and the requests issued so far:
```
for startSlot <= endSlot {
  end := startSlot + pageSize - 1
  if end > endSlot { end = endSlot }
  blocks, err := client.GetBlocks(ctx, startSlot, &end, rpc.CommitmentFinalized)
  if err != nil { return nil, err }
  out = append(out, blocks)
  startSlot = end + 1
}
return out, nil
```
`pageSize` is `1000`; the additions are `uint64` additions. -/
def fetchLoop {ε : Type} (client : Source ε) (endSlot : Nat) :
    Nat → Nat → List BlocksResult → List (Nat × Nat) → FetchRun ε
  | 0, startSlot, out, reqs =>
    if startSlot ≤ endSlot then ⟨reqs, none⟩ else ⟨reqs, some (.ok out)⟩
  | fuel + 1, startSlot, out, reqs =>
    if startSlot ≤ endSlot then
      let pageSize := 1000
      let end0 := (startSlot + pageSize - 1) % U64
      let end1 := if end0 > endSlot then endSlot else end0
      match client startSlot end1 with
      | .error err => ⟨reqs ++ [(startSlot, end1)], some (.error err)⟩
      | .ok blocks => fetchLoop client endSlot fuel ((end1 + 1) % U64) (out ++ [blocks])
          (reqs ++ [(startSlot, end1)])
    else ⟨reqs, some (.ok out)⟩

/-- Source `getAllBlocksBetween(client, startSlot, endSlot)`: its loop, started with an empty
`out`, run for at most `fuel` iterations. -/
def getAllBlocksBetween {ε : Type} (fuel : Nat) (client : Source ε) (startSlot endSlot : Nat) :
    FetchRun ε :=
  fetchLoop client endSlot fuel startSlot [] []

/-- Spec side: the windows `[startSlot + 1000*k, min(startSlot + 1000*k + 999, endSlot)]`,
`k = 0, 1, ...`, that partition `[startSlot, endSlot]` into pages of at most 1000 slots. -/
def pageWindows (startSlot endSlot : Nat) : List (Nat × Nat) :=
  if startSlot ≤ endSlot then
    (List.range ((endSlot - startSlot) / 1000 + 1)).map
      (fun k => (startSlot + 1000 * k, min (startSlot + 1000 * k + 999) endSlot))
  else []

/-- Spec side: the sequential fetch over a given list of windows.  One request per window;
an error aborts with that error and no result list, a result is appended to `out` and the
next window is visited. -/
def fetchWindows {ε : Type} (client : Source ε) :
    List (Nat × Nat) → List BlocksResult → List (Nat × Nat) → FetchRun ε
  | [], out, reqs => ⟨reqs, some (.ok out)⟩
  | w :: ws, out, reqs =>
    match client w.1 w.2 with
    | .error err => ⟨reqs ++ [w], some (.error err)⟩
    | .ok blocks => fetchWindows client ws (out ++ [blocks]) (reqs ++ [w])

/-- The result a source gives for a window (`[]` when it gives an error). -/
def answerOf {ε : Type} (client : Source ε) (w : Nat × Nat) : BlocksResult :=
  match client w.1 w.2 with
  | .ok blocks => blocks
  | .error _ => []

/-- The fetch bounds of `main`: `start, end := epochStart, epochStop; if start > 0 { start-- }`,
the decrement being a `uint64` decrement. -/
def fetchBounds (epoch : Nat) : Nat × Nat :=
  let (epochStart, epochStop) := CalcEpochLimits epoch
  let start := epochStart
  let end0 := epochStop
  let start := if start > 0 then (start + (U64 - 1)) % U64 else start
  (start, end0)

/-- A line of text: the bytes of a Go string. -/
abbrev Line := List Nat

/-- The two errors of `strconv.ParseUint`. -/
inductive NumError where
  /-- Go `ErrSyntax`: the string is empty or has a byte that is not a digit of the base -/
  | malformed
  /-- Go `ErrRange`: the value does not fit the bit size -/
  | outOfRange
  deriving DecidableEq

/-- The errors `loadBlockListFromFile` can return. -/
inductive LoadError where
  /-- the error of `os.Open` -/
  | openFailed
  /-- the error reported by `scanner.Err()` -/
  | scanFailed
  /-- the error of `strconv.ParseUint` on a line -/
  | parse (e : NumError)
  deriving DecidableEq

/-- The digit a byte stands for in `strconv.ParseUint`: a byte from 48 to 57 (the characters
0 to 9) is `c - 48`, a letter (`lower(c) = c | 32` from 97 to 122) is `lower(c) - 97 + 10`,
and any other byte is none (the underscore counts only for base 0). -/
def digitOf (c : Nat) : Option Nat :=
  let lower := c ||| 32
  if 48 ≤ c ∧ c ≤ 57 then some (c - 48)
  else if 97 ≤ lower ∧ lower ≤ 122 then some (lower - 97 + 10)
  else none

/-- The digit loop of `strconv.ParseUint(s, 10, 64)` from the Go library, with the value `n`
read so far.  A byte that is no digit, or a digit `d >= base`, gives `ErrSyntax`;
`n >= cutoff` (with `cutoff = maxUint64/10 + 1`) gives `ErrRange`; then `n *= 10` and
`n1 := n + d` in `uint64`, and `n1 < n || n1 > maxVal` gives `ErrRange`. -/
def parseUintLoop : List Nat → Nat → Except NumError Nat
  | [], n => .ok n
  | c :: cs, n =>
    match digitOf c with
    | none => .error .malformed
    | some d =>
      if d ≥ 10 then .error .malformed
      else if n ≥ (U64 - 1) / 10 + 1 then .error .outOfRange
      else
        let n := (n * 10) % U64
        let n1 := (n + d) % U64
        if n1 < n ∨ n1 > U64 - 1 then .error .outOfRange
        else parseUintLoop cs n1

/-- Library `strconv.ParseUint(s, 10, 64)`: the empty string gives `ErrSyntax`, otherwise the
digit loop from `n = 0`. -/
def ParseUint (s : Line) : Except NumError Nat :=
  if s = [] then .error .malformed else parseUintLoop s 0

/-- What `loadBlockListFromFile` meets when it reads the file at `path`. -/
structure SlotFile where
  /-- whether `os.Open(path)` returned an error -/
  openFails : Bool
  /-- the lines `scanner.Text()` yields, one per successful `scanner.Scan()` -/
  lines : List Line
  /-- whether `scanner.Err()` is an error once `scanner.Scan()` has returned false -/
  scanFails : Bool

/-- The scanning loop of `loadBlockListFromFile`:
```
for scanner.Scan() {
  line := scanner.Text()
  if line == "" { continue }
  block, err := strconv.ParseUint(line, 10, 64)
  if err != nil { return nil, err }
  out = append(out, block)
}
```
-/
def loadLoop : List Line → List Nat → Except LoadError (List Nat)
  | [], out => .ok out
  | line :: rest, out =>
    if line = [] then loadLoop rest out
    else
      match ParseUint line with
      | .error err => .error (.parse err)
      | .ok block => loadLoop rest (out ++ [block])

/-- Source `loadBlockListFromFile`: the open error, the scanning loop, the scanner error, and
`uniqueBlocks` of the values read. -/
def loadBlockListFromFile (file : SlotFile) : Except LoadError (List Nat) :=
  if file.openFails then .error .openFailed
  else
    match loadLoop file.lines [] with
    | .error err => .error err
    | .ok out =>
      if file.scanFails then .error .scanFailed
      else .ok (uniqueBlocks out)

/-- The digit loop of `strconv.FormatUint(i, 10)` from the Go library: the decimal digits of
`u`, least significant first, are put in front of what is already written.  The value drops
at every step, so `fuel >= u` is never used up. -/
def formatLoop : Nat → Nat → List Nat → List Nat
  | 0, u, acc => (u % 10 + 48) :: acc
  | fuel + 1, u, acc =>
    if u ≥ 10 then formatLoop fuel (u / 10) ((u % 10 + 48) :: acc)
    else (u + 48) :: acc

/-- Library `strconv.FormatUint(i, 10)`: the decimal digits of `i`, without leading zeros. -/
def FormatUint (i : Nat) : Line :=
  formatLoop i i []

/-- The lines of the cache file `main` writes:
`for _, block := range fromSolana { file.WriteString(strconv.FormatUint(block, 10) + "\n") }`. -/
def cacheLines (fromSolana : List Nat) : List Line :=
  fromSolana.map FormatUint

/-- Spec side: a byte that is a decimal digit. -/
def isDigit (c : Nat) : Bool :=
  decide (48 ≤ c ∧ c ≤ 57)

/-- Spec side: the number a string of decimal digits denotes, read most significant first. -/
def decimalValue (s : Line) : Nat :=
  s.foldl (fun n c => 10 * n + (c - 48)) 0

/-- Spec side: the slots named by the non-empty lines of a file, in line order (a line that
does not parse names no slot). -/
def lineValues (lines : List Line) : List Nat :=
  lines.filterMap (fun line =>
    if line = [] then none
    else
      match ParseUint line with
      | .ok v => some v
      | .error _ => none)

/-! ## Filtering -/

theorem removeIf_loop (remover : Nat → Bool) (slice out : List Nat) :
    slice.foldl (fun out item => if !remover item then out ++ [item] else out) out
      = out ++ slice.filter (fun item => !remover item) := by
  induction slice generalizing out with
  | nil => simp
  | cons x xs ih =>
    simp only [List.foldl_cons, List.filter_cons]
    rw [ih]
    cases remover x <;> simp

theorem removeIf_eq_filter (slice : List Nat) (remover : Nat → Bool) :
    removeIf slice remover = slice.filter (fun item => !remover item) := by
  unfold removeIf
  rw [removeIf_loop]
  simp

/-! ## Binary search -/

theorem index_of_lt (a : List Nat) (i : Nat) (h : i < a.length) :
    index a i = .ok (a.getD i 0) := by
  simp [index, List.getD, List.getElem?_eq_getElem h]

theorem geAt_of_lt (a : List Nat) (x i : Nat) (h : i < a.length) :
    geAt a x i = .ok (decide (x ≤ a.getD i 0)) := by
  simp [geAt, index_of_lt a i h, Except.map]

/-- The loop of `sort.Search` over a slice never faults and keeps `i ≤ result ≤ j`;
everything left of the result is `< x` and everything right of it is `≥ x` as soon as
this holds outside `[i, j)` and the slice is ascending. -/
theorem searchLoop_spec (a : List Nat) (x : Nat) :
    ∀ fuel i j, i ≤ j → j ≤ a.length → j - i ≤ fuel →
      ∃ r, searchLoop (geAt a x) fuel i j = .ok r ∧ i ≤ r ∧ r ≤ j ∧
        ((∀ p q, p ≤ q → q < a.length → a.getD p 0 ≤ a.getD q 0) →
          (∀ k, k < i → a.getD k 0 < x) → (∀ k, j ≤ k → k < a.length → x ≤ a.getD k 0) →
          (∀ k, k < r → a.getD k 0 < x) ∧ (∀ k, r ≤ k → k < a.length → x ≤ a.getD k 0)) := by
  intro fuel
  induction fuel with
  | zero =>
    intro i j hij hj hf
    have : ¬ i < j := by omega
    exact ⟨i, by simp [searchLoop, this], le_refl _, hij, fun _ hl hr => ⟨hl, fun k hk hka =>
      hr k (by omega) hka⟩⟩
  | succ fuel ih =>
    intro i j hij hj hf
    by_cases hlt : i < j
    · have hh : (i + j) / 2 < a.length := by omega
      simp only [searchLoop, hlt, if_true, geAt_of_lt a x _ hh]
      by_cases hge : x ≤ a.getD ((i + j) / 2) 0
      · simp only [hge, decide_True]
        obtain ⟨r, hr, h1, h2, h3⟩ := ih i ((i + j) / 2) (by omega) (by omega) (by omega)
        refine ⟨r, hr, h1, by omega, fun hm hl hr0 => h3 hm hl ?_⟩
        intro k hk hka
        exact le_trans hge (hm _ _ hk hka)
      · simp only [hge, decide_False]
        obtain ⟨r, hr, h1, h2, h3⟩ := ih ((i + j) / 2 + 1) j (by omega) hj (by omega)
        refine ⟨r, hr, by omega, h2, fun hm hl hr0 => h3 hm ?_ hr0⟩
        intro k hk
        have := hm k ((i + j) / 2) (by omega) hh
        omega
    · exact ⟨i, by simp [searchLoop, hlt], le_refl _, hij, fun _ hl hr => ⟨hl, fun k hk hka =>
        hr k (by omega) hka⟩⟩

/-- Totality: `SearchUint64` returns an index `r ≤ len(a)`, and on an ascending slice the
lower bound. -/
theorem SearchUint64_spec (a : List Nat) (x : Nat) :
    ∃ r, SearchUint64 a x = .ok r ∧ r ≤ a.length ∧
      ((∀ p q, p ≤ q → q < a.length → a.getD p 0 ≤ a.getD q 0) →
        (∀ k, k < r → a.getD k 0 < x) ∧ (∀ k, r ≤ k → k < a.length → x ≤ a.getD k 0)) := by
  obtain ⟨r, hr, _, h2, h3⟩ := searchLoop_spec a x a.length 0 a.length (Nat.zero_le _)
    (le_refl _) (by omega)
  refine ⟨r, hr, h2, fun hm => h3 hm (fun k hk => absurd hk (Nat.not_lt_zero _)) ?_⟩
  intro k hk hka
  omega

/-- An ascending list is monotone in its indices. -/
theorem getD_mono_of_sorted (a : List Nat) (hs : a.Sorted (fun u v => u ≤ v)) :
    ∀ p q, p ≤ q → q < a.length → a.getD p 0 ≤ a.getD q 0 := by
  intro p q hpq hq
  have hp : p < a.length := by omega
  rcases Nat.eq_or_lt_of_le hpq with h | h
  · subst h; exact le_refl _
  · have := (List.pairwise_iff_getElem.mp hs) p q hp hq h
    simpa [List.getD, List.getElem?_eq_getElem hp, List.getElem?_eq_getElem hq] using this

/-- Totality: `contains` never faults. -/
theorem contains_total (slots : List Nat) (slot : Nat) :
    ∃ b, contains slots slot = .ok b := by
  obtain ⟨r, hr, hle, _⟩ := SearchUint64_spec slots slot
  by_cases h : r < slots.length
  · exact ⟨decide (slots.getD r 0 = slot), by simp [contains, hr, h, index_of_lt, Except.map]⟩
  · exact ⟨false, by simp [contains, hr, h]⟩

/-- On an ascending slice `contains` decides membership. -/
theorem contains_of_sorted (slots : List Nat) (slot : Nat)
    (hs : slots.Sorted (fun u v => u ≤ v)) :
    contains slots slot = .ok (decide (slot ∈ slots)) := by
  obtain ⟨r, hr, hle, h3⟩ := SearchUint64_spec slots slot
  obtain ⟨hlo, hhi⟩ := h3 (getD_mono_of_sorted slots hs)
  by_cases h : r < slots.length
  · have hiff : (slots.getD r 0 = slot) ↔ slot ∈ slots := by
      constructor
      · intro e
        rw [← e, List.getD_eq_getElem _ _ h]
        exact List.getElem_mem _
      · intro hm
        obtain ⟨k, hk, e⟩ := List.getElem_of_mem hm
        have e2 : slots.getD k 0 = slot := by rw [List.getD_eq_getElem _ _ hk]; exact e
        have hrk : r ≤ k := by
          by_contra hc
          have := hlo k (by omega)
          omega
        have h1 := hhi r (le_refl _) h
        have h2 := getD_mono_of_sorted slots hs r k hrk hk
        omega
    have hd : decide (slot ∈ slots) = decide (slots.getD r 0 = slot) :=
      decide_eq_decide.mpr hiff.symm
    rw [hd]
    simp [contains, hr, h, index_of_lt, Except.map]
  · have hnot : slot ∉ slots := by
      intro hm
      obtain ⟨k, hk, e⟩ := List.getElem_of_mem hm
      have e2 : slots.getD k 0 = slot := by rw [List.getD_eq_getElem _ _ hk]; exact e
      have := hlo k (by omega)
      omega
    simp [contains, hr, h, hnot]

/-! ## The comparison -/

theorem contains_eq_found (slots : List Nat) (slot : Nat) :
    contains slots slot = .ok (found slots slot) := by
  obtain ⟨b, hb⟩ := contains_total slots slot
  simp [found, hb]

theorem found_of_sorted (slots : List Nat) (slot : Nat)
    (hs : slots.Sorted (fun u v => u ≤ v)) : found slots slot = decide (slot ∈ slots) := by
  simp [found, contains_of_sorted slots slot hs]

theorem collectMissing_eq (other : List Nat) :
    ∀ xs out, collectMissing other xs out
      = .ok (out ++ xs.filter (fun block => !found other block)) := by
  intro xs
  induction xs with
  | nil => intro out; simp [collectMissing]
  | cons x xs ih =>
    intro out
    simp only [collectMissing, contains_eq_found other x, List.filter_cons]
    cases hf : found other x <;> simp [ih]

/-- The report of `compare` in closed form, for arbitrary slices. -/
theorem compare_eq (fromFaithful fromSolana : List Nat) :
    compare fromFaithful fromSolana = .ok
      { notInSolana := fromFaithful.filter (fun block => !found fromSolana block)
        notInFaithful := fromSolana.filter (fun block => !found fromFaithful block)
        hasDiff :=
          if (fromSolana.filter (fun block => !found fromFaithful block)).length > 0 then true
          else if (fromFaithful.filter (fun block => !found fromSolana block)).length > 0 then true
          else false } := by
  simp [compare, collectMissing_eq]

theorem removeIf_notInEpoch (xs : List Nat) (epoch : Nat) :
    removeIf xs (notInEpoch epoch) = xs.filter (fun s => decide (CalcEpochForSlot s = epoch)) := by
  rw [removeIf_eq_filter]
  apply List.filter_congr
  intro x _
  by_cases h : CalcEpochForSlot x = epoch <;> simp [notInEpoch, h]

theorem removeIf_sorted_lt (xs : List Nat) (p : Nat → Bool) (h : xs.Sorted (fun u v => u < v)) :
    (removeIf xs p).Sorted (fun u v => u < v) := by
  rw [removeIf_eq_filter]
  exact List.Pairwise.filter _ h

theorem removeIf_sorted_le (xs : List Nat) (p : Nat → Bool) (h : xs.Sorted (fun u v => u ≤ v)) :
    (removeIf xs p).Sorted (fun u v => u ≤ v) := by
  rw [removeIf_eq_filter]
  exact List.Pairwise.filter _ h

theorem sorted_le_of_lt (xs : List Nat) (h : xs.Sorted (fun u v => u < v)) :
    xs.Sorted (fun u v => u ≤ v) :=
  List.Pairwise.imp (fun hab => Nat.le_of_lt hab) h

/-- The slots of an epoch-filtered ascending list `a` that `contains` misses in the
epoch-filtered ascending list `b` are the slots of `a` in the epoch that are not in `b`. -/
theorem missing_filtered (a b : List Nat) (epoch : Nat) (hb : b.Sorted (fun u v => u ≤ v)) :
    (removeIf a (notInEpoch epoch)).filter
        (fun block => !found (removeIf b (notInEpoch epoch)) block)
      = a.filter (fun s => decide (CalcEpochForSlot s = epoch ∧ s ∉ b)) := by
  rw [removeIf_notInEpoch a, List.filter_filter]
  apply List.filter_congr
  intro x _
  rw [found_of_sorted _ _ (removeIf_sorted_le b _ hb), removeIf_notInEpoch b]
  by_cases h1 : CalcEpochForSlot x = epoch <;> by_cases h2 : x ∈ b <;> simp [h1, h2]

/-- Two strictly increasing lists of which each misses nothing of the other are equal. -/
theorem eq_of_missing_nil (a b : List Nat) (ha : a.Sorted (fun u v => u < v))
    (hb : b.Sorted (fun u v => u < v)) :
    (a.filter (fun block => !found b block) = [] ∧ b.filter (fun block => !found a block) = [])
      ↔ a = b := by
  have fa := fun x => found_of_sorted a x (sorted_le_of_lt a ha)
  have fb := fun x => found_of_sorted b x (sorted_le_of_lt b hb)
  constructor
  · rintro ⟨h1, h2⟩
    have s1 : ∀ x, x ∈ a → x ∈ b := by
      intro x hx
      have := (List.filter_eq_nil_iff.mp h1) x hx
      simpa [fb] using this
    have s2 : ∀ x, x ∈ b → x ∈ a := by
      intro x hx
      have := (List.filter_eq_nil_iff.mp h2) x hx
      simpa [fa] using this
    have hp : a.Perm b :=
      (List.perm_ext_iff_of_nodup (List.Sorted.nodup ha) (List.Sorted.nodup hb)).mpr
        (fun x => ⟨s1 x, s2 x⟩)
    exact List.eq_of_perm_of_sorted hp ha hb
  · intro h
    subst h
    constructor <;>
    · apply List.filter_eq_nil_iff.mpr
      intro x hx
      simp [fa, hx]

/-! ## Canonicalization -/

theorem sortSlice_sorted (xs : List Nat) : (sortSlice xs).Sorted (fun u v => u ≤ v) :=
  List.sorted_insertionSort _ xs

theorem sortSlice_perm (xs : List Nat) : (sortSlice xs).Perm xs :=
  List.perm_insertionSort _ xs

/-- The ascending rearrangement of a list of numbers is unique: whatever `sort.Slice`
does internally, its result is `sortSlice`. -/
theorem sortSlice_unique (xs ys : List Nat) (hp : ys.Perm xs)
    (hs : ys.Sorted (fun u v => u ≤ v)) : ys = sortSlice xs :=
  List.eq_of_perm_of_sorted (hp.trans (sortSlice_perm xs).symm) hs (sortSlice_sorted xs)

theorem sortSlice_of_sorted (xs : List Nat) (hs : xs.Sorted (fun u v => u ≤ v)) :
    sortSlice xs = xs :=
  List.Sorted.insertionSort_eq hs

theorem dedupUpTo_zero (s : List Nat) : dedupUpTo s 0 = [] := rfl

theorem dedupUpTo_succ (s : List Nat) (k : Nat) :
    dedupUpTo s (k + 1) =
      if k = 0 ∨ s.getD k 0 ≠ s.getD (k - 1) 0 then dedupUpTo s k ++ [s.getD k 0]
      else dedupUpTo s k := by
  simp only [dedupUpTo, List.range_succ, List.foldl_append, List.foldl_cons, List.foldl_nil]

theorem dedupLoop_eq_dedupUpTo (s : List Nat) : dedupLoop s = dedupUpTo s s.length := rfl

theorem mem_take_iff_getD (s : List Nat) (k x : Nat) :
    x ∈ s.take k ↔ ∃ i, i < k ∧ i < s.length ∧ s.getD i 0 = x := by
  rw [List.mem_take_iff_getElem]
  constructor
  · rintro ⟨i, hi, e⟩
    have h1 : i < s.length := by omega
    exact ⟨i, by omega, h1, by rw [List.getD_eq_getElem _ _ h1]; exact e⟩
  · rintro ⟨i, hk, hl, e⟩
    exact ⟨i, by omega, by rw [List.getD_eq_getElem _ _ hl] at e; exact e⟩

/-- After `k` iterations over an ascending slice, `out` is strictly increasing and holds
exactly the values of the first `k` elements. -/
theorem dedupUpTo_inv (s : List Nat) (hs : s.Sorted (fun u v => u ≤ v)) :
    ∀ k, k ≤ s.length →
      (dedupUpTo s k).Sorted (fun u v => u < v) ∧ ∀ x, x ∈ dedupUpTo s k ↔ x ∈ s.take k := by
  have hm := getD_mono_of_sorted s hs
  intro k
  induction k with
  | zero => intro _; simp [dedupUpTo_zero]
  | succ k ih =>
    intro hk
    have hk1 : k < s.length := by omega
    obtain ⟨hsorted, hmem⟩ := ih (by omega)
    have htake : ∀ x, x ∈ s.take (k + 1) ↔ x ∈ s.take k ∨ x = s.getD k 0 := by
      intro x
      rw [List.take_succ, List.mem_append, List.getElem?_eq_getElem hk1,
        List.getD_eq_getElem _ _ hk1]
      simp
    rw [dedupUpTo_succ]
    by_cases hc : k = 0 ∨ s.getD k 0 ≠ s.getD (k - 1) 0
    · rw [if_pos hc]
      refine ⟨?_, fun x => ?_⟩
      · refine List.pairwise_append.mpr ⟨hsorted, List.pairwise_singleton _ _, ?_⟩
        intro a ha b hb
        rw [List.mem_singleton] at hb
        subst hb
        obtain ⟨i, hik, hil, e⟩ := (mem_take_iff_getD s k a).mp ((hmem a).mp ha)
        rcases hc with h0 | hne
        · omega
        · have h1 := hm i (k - 1) (by omega) (by omega)
          have h2 := hm (k - 1) k (by omega) hk1
          omega
      · rw [List.mem_append, List.mem_singleton, htake, hmem]
    · rw [if_neg hc]
      refine ⟨hsorted, fun x => ?_⟩
      rw [htake, hmem]
      constructor
      · exact Or.inl
      · rintro (h | h)
        · exact h
        · have hk0 : 0 < k := by omega
          have he : s.getD k 0 = s.getD (k - 1) 0 := by
            by_contra hne
            exact hc (Or.inr hne)
          rw [h, he]
          exact (mem_take_iff_getD s k _).mpr ⟨k - 1, by omega, by omega, rfl⟩

/-- On a strictly increasing slice the loop copies every element. -/
theorem dedupUpTo_of_strict (s : List Nat) (hs : s.Sorted (fun u v => u < v)) :
    ∀ k, k ≤ s.length → dedupUpTo s k = s.take k := by
  intro k
  induction k with
  | zero => intro _; simp [dedupUpTo_zero]
  | succ k ih =>
    intro hk
    have hk1 : k < s.length := by omega
    have hc : k = 0 ∨ s.getD k 0 ≠ s.getD (k - 1) 0 := by
      by_cases h0 : k = 0
      · exact Or.inl h0
      · right
        have := (List.pairwise_iff_getElem.mp hs) (k - 1) k (by omega) hk1 (by omega)
        rw [List.getD_eq_getElem _ _ hk1, List.getD_eq_getElem _ _ (by omega : k - 1 < s.length)]
        omega
    rw [dedupUpTo_succ, if_pos hc, ih (by omega), List.take_succ,
      List.getElem?_eq_getElem hk1, List.getD_eq_getElem _ _ hk1]
    rfl

theorem uniqueBlocks_sorted (xs : List Nat) : (uniqueBlocks xs).Sorted (fun u v => u < v) :=
  (dedupUpTo_inv _ (sortSlice_sorted xs) _ (le_refl _)).1

theorem mem_uniqueBlocks (xs : List Nat) (x : Nat) : x ∈ uniqueBlocks xs ↔ x ∈ xs := by
  have h := (dedupUpTo_inv _ (sortSlice_sorted xs) _ (le_refl _)).2 x
  rw [List.take_length] at h
  exact h.trans (sortSlice_perm xs).mem_iff

theorem uniqueBlocks_of_strict (xs : List Nat) (hs : xs.Sorted (fun u v => u < v)) :
    uniqueBlocks xs = xs := by
  unfold uniqueBlocks
  rw [sortSlice_of_sorted xs (sorted_le_of_lt xs hs), dedupLoop_eq_dedupUpTo,
    dedupUpTo_of_strict xs hs _ (le_refl _), List.take_length]

/-! ## The paginated fetch -/

theorem pageWindows_of_gt (startSlot endSlot : Nat) (h : ¬ startSlot ≤ endSlot) :
    pageWindows startSlot endSlot = [] := by
  simp [pageWindows, h]

theorem pageWindows_length (startSlot endSlot : Nat) (h : startSlot ≤ endSlot) :
    (pageWindows startSlot endSlot).length = (endSlot - startSlot) / 1000 + 1 := by
  simp [pageWindows, h]

/-- The windows of a non-empty range: the first page, then the windows of the rest. -/
theorem pageWindows_step (startSlot endSlot : Nat) (h : startSlot ≤ endSlot) :
    pageWindows startSlot endSlot
      = (startSlot, min (startSlot + 999) endSlot)
          :: pageWindows (min (startSlot + 999) endSlot + 1) endSlot := by
  by_cases hlast : endSlot ≤ startSlot + 999
  · have hm : min (startSlot + 999) endSlot = endSlot := Nat.min_eq_right hlast
    have hz : (endSlot - startSlot) / 1000 = 0 := by omega
    rw [hm, pageWindows_of_gt (endSlot + 1) endSlot (by omega)]
    simp [pageWindows, h, hz, hm, List.range_succ]
  · have hm : min (startSlot + 999) endSlot = startSlot + 999 := Nat.min_eq_left (by omega)
    have hn : (endSlot - startSlot) / 1000 = (endSlot - (startSlot + 999 + 1)) / 1000 + 1 := by
      omega
    rw [hm]
    simp only [pageWindows, h, if_true, hn, (by omega : startSlot + 999 + 1 ≤ endSlot)]
    rw [List.range_succ_eq_map, List.map_cons, List.map_map]
    refine congrArg₂ List.cons (by simp [hm]) ?_
    apply List.map_congr_left
    intro k _
    simp only [Function.comp, Nat.succ_eq_add_one]
    refine Prod.ext (by simp; omega) ?_
    simp only
    congr 1
    omega

/-- While no `uint64` addition wraps, the loop is the sequential fetch over `pageWindows`. -/
theorem fetchLoop_eq_fetchWindows {ε : Type} (client : Source ε) (endSlot : Nat)
    (hend : endSlot ≤ 2 ^ 64 - 1000) :
    ∀ fuel startSlot out reqs, (pageWindows startSlot endSlot).length ≤ fuel →
      fetchLoop client endSlot fuel startSlot out reqs
        = fetchWindows client (pageWindows startSlot endSlot) out reqs := by
  intro fuel
  induction fuel with
  | zero =>
    intro startSlot out reqs hf
    have hgt : ¬ startSlot ≤ endSlot := by
      intro hle
      rw [pageWindows_length _ _ hle] at hf
      omega
    simp [fetchLoop, hgt, pageWindows_of_gt _ _ hgt, fetchWindows]
  | succ fuel ih =>
    intro startSlot out reqs hf
    by_cases hle : startSlot ≤ endSlot
    · have h0 : (startSlot + 1000 - 1) % U64 = startSlot + 999 := by
        unfold U64
        omega
      have h1 : (if startSlot + 999 > endSlot then endSlot else startSlot + 999)
          = min (startSlot + 999) endSlot := by
        simp only [Nat.min_def]
        split <;> split <;> omega
      have h2 : (min (startSlot + 999) endSlot + 1) % U64 = min (startSlot + 999) endSlot + 1 := by
        unfold U64
        have : min (startSlot + 999) endSlot ≤ endSlot := Nat.min_le_right _ _
        omega
      rw [pageWindows_step _ _ hle] at hf ⊢
      simp only [fetchLoop, hle, if_true, h0, h1, h2, fetchWindows]
      cases hc : client startSlot (min (startSlot + 999) endSlot) with
      | error err => rfl
      | ok blocks =>
        simp only
        exact ih _ _ _ (by simpa using hf)
    · simp [fetchLoop, hle, pageWindows_of_gt _ _ hle, fetchWindows]

theorem fetchWindows_all_ok {ε : Type} (client : Source ε) :
    ∀ ws out reqs, (∀ w, w ∈ ws → ∃ b, client w.1 w.2 = .ok b) →
      fetchWindows client ws out reqs
        = ⟨reqs ++ ws, some (.ok (out ++ ws.map (answerOf client)))⟩ := by
  intro ws
  induction ws with
  | nil => intro out reqs _; simp [fetchWindows]
  | cons w ws ih =>
    intro out reqs h
    obtain ⟨b, hb⟩ := h w (List.mem_cons_self _ _)
    simp only [fetchWindows, hb]
    rw [ih _ _ (fun v hv => h v (List.mem_cons_of_mem _ hv))]
    simp [answerOf, hb]

theorem fetchWindows_first_error {ε : Type} (client : Source ε) :
    ∀ pre w post err out reqs, (∀ v, v ∈ pre → ∃ b, client v.1 v.2 = .ok b) →
      client w.1 w.2 = .error err →
      fetchWindows client (pre ++ w :: post) out reqs
        = ⟨reqs ++ pre ++ [w], some (.error err)⟩ := by
  intro pre
  induction pre with
  | nil => intro w post err out reqs _ hw; simp [fetchWindows, hw]
  | cons v pre ih =>
    intro w post err out reqs h hw
    obtain ⟨b, hb⟩ := h v (List.mem_cons_self _ _)
    have e := ih w post err (out ++ [b]) (reqs ++ [v])
      (fun u hu => h u (List.mem_cons_of_mem _ hu)) hw
    simp only [List.cons_append, fetchWindows, hb]
    refine Eq.trans e ?_
    simp

/-- What every run of the loop satisfies, wrapping or not: the requests extend those already
issued; a returned error is the error of the last request and all requests before it were
answered; a returned list holds the answers of all requests in order; and a loop still
running after `fuel` iterations has issued `fuel` requests, all answered. -/
theorem fetchLoop_gen {ε : Type} (client : Source ε) (endSlot : Nat) :
    ∀ fuel startSlot out reqs, ∃ ws,
      (fetchLoop client endSlot fuel startSlot out reqs).requests = reqs ++ ws ∧
      (∀ err, (fetchLoop client endSlot fuel startSlot out reqs).returned = some (.error err) →
        ∃ pre w, ws = pre ++ [w] ∧ client w.1 w.2 = .error err ∧
          ∀ v, v ∈ pre → ∃ b, client v.1 v.2 = .ok b) ∧
      (∀ res, (fetchLoop client endSlot fuel startSlot out reqs).returned = some (.ok res) →
        res.map (fun b => (Except.ok b : Except ε BlocksResult))
          = out.map (fun b => (Except.ok b : Except ε BlocksResult))
            ++ ws.map (fun w => client w.1 w.2)) ∧
      ((fetchLoop client endSlot fuel startSlot out reqs).returned = none →
        ws.length = fuel ∧ ∀ v, v ∈ ws → ∃ b, client v.1 v.2 = .ok b) := by
  intro fuel
  induction fuel with
  | zero =>
    intro startSlot out reqs
    refine ⟨[], ?_⟩
    by_cases hle : startSlot ≤ endSlot
    · simp [fetchLoop, hle]
    · simp only [fetchLoop, hle, if_false]
      refine ⟨by simp, by simp, ?_, by simp⟩
      intro res hres
      simp only [Option.some.injEq, Except.ok.injEq] at hres
      subst hres
      simp
  | succ fuel ih =>
    intro startSlot out reqs
    by_cases hle : startSlot ≤ endSlot
    · simp only [fetchLoop, hle, if_true]
      generalize hw : (if (startSlot + 1000 - 1) % U64 > endSlot then endSlot
        else (startSlot + 1000 - 1) % U64) = e1
      cases hc : client startSlot e1 with
      | error err =>
        refine ⟨[(startSlot, e1)], rfl, ?_, ?_, ?_⟩
        · intro err2 h2
          simp only [Option.some.injEq, Except.error.injEq] at h2
          subst h2
          exact ⟨[], (startSlot, e1), rfl, hc, by simp⟩
        · intro res h2
          simp at h2
        · intro h2
          simp at h2
      | ok blocks =>
        simp only
        obtain ⟨ws, h1, h2, h3, h4⟩ := ih ((e1 + 1) % U64) (out ++ [blocks])
          (reqs ++ [(startSlot, e1)])
        refine ⟨(startSlot, e1) :: ws, by rw [h1]; simp, ?_, ?_, ?_⟩
        · intro err herr
          obtain ⟨pre, w, e, hwerr, hpre⟩ := h2 err herr
          refine ⟨(startSlot, e1) :: pre, w, by rw [e]; simp, hwerr, ?_⟩
          intro v hv
          rcases List.mem_cons.mp hv with h | h
          · subst h; exact ⟨blocks, hc⟩
          · exact hpre v h
        · intro res hres
          rw [h3 res hres]
          simp [hc]
        · intro hnone
          obtain ⟨hl, hall⟩ := h4 hnone
          refine ⟨by simp [hl], ?_⟩
          intro v hv
          rcases List.mem_cons.mp hv with h | h
          · subst h; exact ⟨blocks, hc⟩
          · exact hall v h
    · simp only [fetchLoop, hle, if_false]
      refine ⟨[], by simp, by simp, ?_, by simp⟩
      intro res hres
      simp only [Option.some.injEq, Except.ok.injEq] at hres
      subst hres
      simp

/-- With `endSlot = 2^64 - 1` the loop condition `startSlot <= endSlot` holds for every
`uint64`, so a loop whose requests are all answered is still running after any number of
iterations. -/
theorem fetchLoop_top_running {ε : Type} (client : Source ε) (endSlot : Nat)
    (hend : U64 ≤ endSlot + 1) (hans : ∀ a b, ∃ r, client a b = .ok r) :
    ∀ fuel startSlot out reqs, startSlot < U64 →
      (fetchLoop client endSlot fuel startSlot out reqs).returned = none := by
  intro fuel
  induction fuel with
  | zero =>
    intro startSlot out reqs h
    have hle : startSlot ≤ endSlot := by omega
    simp [fetchLoop, hle]
  | succ fuel ih =>
    intro startSlot out reqs h
    have hle : startSlot ≤ endSlot := by omega
    simp only [fetchLoop, hle, if_true]
    generalize (if (startSlot + 1000 - 1) % U64 > endSlot then endSlot
      else (startSlot + 1000 - 1) % U64) = e1
    obtain ⟨r, hr⟩ := hans startSlot e1
    rw [hr]
    exact ih _ _ _ (Nat.mod_lt _ (by unfold U64; omega))

theorem pageWindows_getElem? (startSlot endSlot k : Nat) (h : startSlot ≤ endSlot)
    (hk : k < (endSlot - startSlot) / 1000 + 1) :
    (pageWindows startSlot endSlot)[k]?
      = some (startSlot + 1000 * k, min (startSlot + 1000 * k + 999) endSlot) := by
  simp [pageWindows, h, List.getElem?_map, List.getElem?_range hk]

/-- A window found at index `k` of `pageWindows` is the `k`-th page. -/
theorem pageWindows_at (startSlot endSlot k : Nat) (w : Nat × Nat) (h : startSlot ≤ endSlot)
    (hw : (pageWindows startSlot endSlot)[k]? = some w) :
    k < (endSlot - startSlot) / 1000 + 1 ∧ w.1 = startSlot + 1000 * k ∧
      w.2 = min (startSlot + 1000 * k + 999) endSlot := by
  have hk : k < (endSlot - startSlot) / 1000 + 1 := by
    have := (List.getElem?_eq_some_iff.mp hw).1
    rwa [pageWindows_length _ _ h] at this
  rw [pageWindows_getElem? _ _ _ h hk] at hw
  simp only [Option.some.injEq] at hw
  subst hw
  exact ⟨hk, rfl, rfl⟩

/-- The pages of a non-empty range are in increasing order, consecutive, inside the range,
at most 1000 slots long, exactly 1000 long except possibly the last, and every slot of the
range lies in exactly one of them. -/
theorem pageWindows_partition (startSlot endSlot : Nat) (h : startSlot ≤ endSlot) :
    (pageWindows startSlot endSlot).Pairwise (fun u v => u.2 < v.1) ∧
    (∀ k a b, (pageWindows startSlot endSlot)[k]? = some a →
      (pageWindows startSlot endSlot)[k + 1]? = some b → b.1 = a.2 + 1) ∧
    (∀ w, w ∈ pageWindows startSlot endSlot →
      w.1 ≤ w.2 ∧ w.2 - w.1 + 1 ≤ 1000 ∧ startSlot ≤ w.1 ∧ w.2 ≤ endSlot) ∧
    (∀ k w, k + 1 < (pageWindows startSlot endSlot).length →
      (pageWindows startSlot endSlot)[k]? = some w → w.2 - w.1 + 1 = 1000) ∧
    (∀ x, startSlot ≤ x → x ≤ endSlot →
      ∃! k : Nat, ∃ w : Nat × Nat,
        (pageWindows startSlot endSlot)[k]? = some w ∧ w.1 ≤ x ∧ x ≤ w.2) := by
  refine ⟨?_, ?_, ?_, ?_, ?_⟩
  · rw [List.pairwise_iff_getElem]
    intro i j hi hj hij
    obtain ⟨_, _, a2⟩ := pageWindows_at _ _ i _ h (List.getElem?_eq_getElem hi)
    obtain ⟨_, b1, _⟩ := pageWindows_at _ _ j _ h (List.getElem?_eq_getElem hj)
    omega
  · intro k a b ha hb
    obtain ⟨_, _, a2⟩ := pageWindows_at _ _ k a h ha
    obtain ⟨_, b1, _⟩ := pageWindows_at _ _ (k + 1) b h hb
    omega
  · intro w hw
    obtain ⟨k, hk, e⟩ := List.getElem_of_mem hw
    obtain ⟨_, w1, w2⟩ := pageWindows_at _ _ k w h (by rw [List.getElem?_eq_getElem hk, e])
    omega
  · intro k w hk hw
    rw [pageWindows_length _ _ h] at hk
    obtain ⟨_, w1, w2⟩ := pageWindows_at _ _ k w h hw
    omega
  · intro x hx1 hx2
    have hk : (x - startSlot) / 1000 < (endSlot - startSlot) / 1000 + 1 := by omega
    refine ⟨(x - startSlot) / 1000,
      ⟨_, pageWindows_getElem? startSlot endSlot ((x - startSlot) / 1000) h hk, ?_, ?_⟩, ?_⟩
    · simp only; omega
    · simp only; omega
    · rintro k ⟨w, hw, hw1, hw2⟩
      obtain ⟨_, w1, w2⟩ := pageWindows_at _ _ k w h hw
      omega

/-- A fetch whose requests are all answered and whose additions do not wrap issues exactly
the pages of the range and returns their answers. -/
theorem getAllBlocksBetween_answered {ε : Type} (client : Source ε)
    (startSlot endSlot fuel : Nat) (hend : endSlot ≤ 2 ^ 64 - 1000)
    (hans : ∀ w, w ∈ pageWindows startSlot endSlot → ∃ b, client w.1 w.2 = .ok b)
    (hfuel : (pageWindows startSlot endSlot).length ≤ fuel) :
    getAllBlocksBetween fuel client startSlot endSlot
      = ⟨pageWindows startSlot endSlot,
          some (.ok ((pageWindows startSlot endSlot).map (answerOf client)))⟩ := by
  unfold getAllBlocksBetween
  rw [fetchLoop_eq_fetchWindows client endSlot hend fuel startSlot [] [] hfuel,
    fetchWindows_all_ok client _ _ _ hans]
  simp

theorem map_answerOf {ε : Type} (client : Source ε) :
    ∀ ws : List (Nat × Nat), (∀ w, w ∈ ws → ∃ b, client w.1 w.2 = .ok b) →
      (ws.map (answerOf client)).map (fun b => (Except.ok b : Except ε BlocksResult))
        = ws.map (fun w => client w.1 w.2) := by
  intro ws h
  rw [List.map_map]
  apply List.map_congr_left
  intro w hw
  obtain ⟨b, hb⟩ := h w hw
  simp [answerOf, hb]

/-! ## Claims on the reconciler -/

/-- C1: for strictly increasing lists `A` and `B` and every epoch `e`, the epoch filter
followed by `compare` returns a report whose first list is exactly the slots of `A` in
epoch `e` that do not occur in `B`, in the order of `A`, and whose second list is exactly
the slots of `B` in epoch `e` that do not occur in `A`, in the order of `B`; for epoch 0,
reference `[5, 10, 431999]` and remote `[5, 10, 20]` the report is `[431999]`, `[20]` and
"not identical". -/
theorem reconcile_canonical (A B : List Nat) (e : Nat)
    (hA : A.Sorted (fun u v => u < v)) (hB : B.Sorted (fun u v => u < v)) :
    (∃ r, reconcile A B e = .ok r ∧
      r.notInSolana = A.filter (fun s => decide (CalcEpochForSlot s = e ∧ s ∉ B)) ∧
      r.notInFaithful = B.filter (fun s => decide (CalcEpochForSlot s = e ∧ s ∉ A))) ∧
    reconcile [5, 10, 431999] [5, 10, 20] 0
      = .ok { notInSolana := [431999], notInFaithful := [20], hasDiff := true } := by
  refine ⟨⟨_, compare_eq _ _, ?_, ?_⟩, by decide⟩
  · exact missing_filtered A B e (sorted_le_of_lt B hB)
  · exact missing_filtered B A e (sorted_le_of_lt A hA)

/-- Witness of C1 at `A = [1, 432000, 432005]`, `B = [432000, 432007, 900000]`, epoch 1. -/
theorem reconcile_canonical_witness :
    List.Sorted (fun u v => u < v) [1, 432000, 432005] ∧
    List.Sorted (fun u v => u < v) [432000, 432007, 900000] ∧
    ((∃ r, reconcile [1, 432000, 432005] [432000, 432007, 900000] 1 = .ok r ∧
      r.notInSolana = [1, 432000, 432005].filter
        (fun s => decide (CalcEpochForSlot s = 1 ∧ s ∉ [432000, 432007, 900000])) ∧
      r.notInFaithful = [432000, 432007, 900000].filter
        (fun s => decide (CalcEpochForSlot s = 1 ∧ s ∉ [1, 432000, 432005]))) ∧
    reconcile [5, 10, 431999] [5, 10, 20] 0
      = .ok { notInSolana := [431999], notInFaithful := [20], hasDiff := true }) :=
  ⟨by decide, by decide,
    reconcile_canonical [1, 432000, 432005] [432000, 432007, 900000] 1 (by decide) (by decide)⟩

/-- C2: for strictly increasing lists `A` and `B` and every epoch `e`, the report has
`hasDiff = false` ("No differences." is printed) exactly when both difference lists are
empty, and exactly when the epoch-filtered `A` equals the epoch-filtered `B`; in
particular when both filtered lists are empty. -/
theorem reconcile_no_differences_iff (A B : List Nat) (e : Nat)
    (hA : A.Sorted (fun u v => u < v)) (hB : B.Sorted (fun u v => u < v)) :
    ∃ r, reconcile A B e = .ok r ∧
      (r.hasDiff = false ↔ r.notInSolana = [] ∧ r.notInFaithful = []) ∧
      (r.hasDiff = false ↔ removeIf A (notInEpoch e) = removeIf B (notInEpoch e)) ∧
      (removeIf A (notInEpoch e) = [] → removeIf B (notInEpoch e) = [] → r.hasDiff = false) := by
  have key := eq_of_missing_nil _ _ (removeIf_sorted_lt A (notInEpoch e) hA)
    (removeIf_sorted_lt B (notInEpoch e) hB)
  have hflag : ∀ l1 l2 : List Nat,
      ((if l2.length > 0 then true else if l1.length > 0 then true else false) = false)
        ↔ l1 = [] ∧ l2 = [] := by
    intro l1 l2
    cases l1 <;> cases l2 <;> simp
  refine ⟨_, compare_eq _ _, hflag _ _, ?_, ?_⟩
  · exact (hflag _ _).trans key
  · intro h1 h2
    exact ((hflag _ _).trans key).mpr (h1.trans h2.symm)

/-- Witness of C2 at `A = [1, 5]`, `B = [2, 900000]`, epoch 1: neither list has a slot of
the epoch, and no difference is reported. -/
theorem reconcile_no_differences_iff_witness :
    List.Sorted (fun u v => u < v) [1, 5] ∧
    List.Sorted (fun u v => u < v) [2, 900000] ∧
    removeIf [1, 5] (notInEpoch 1) = [] ∧ removeIf [2, 900000] (notInEpoch 1) = [] ∧
    ∃ r, reconcile [1, 5] [2, 900000] 1 = .ok r ∧
      (r.hasDiff = false ↔ r.notInSolana = [] ∧ r.notInFaithful = []) ∧
      (r.hasDiff = false ↔
        removeIf [1, 5] (notInEpoch 1) = removeIf [2, 900000] (notInEpoch 1)) ∧
      r.hasDiff = false := by
  obtain ⟨r, h1, h2, h3, h4⟩ :=
    reconcile_no_differences_iff [1, 5] [2, 900000] 1 (by decide) (by decide)
  exact ⟨by decide, by decide, by decide, by decide, r, h1, h2, h3, h4 (by decide) (by decide)⟩

/-- C3 as stated fails: the list `[3, 1, 2]` is not sorted, the binary search of `contains`
misses `3` and `1` in it, and reconciling the list against itself in epoch 0 reports both
as differences on both sides. -/
theorem reconcile_self_unsorted :
    reconcile [3, 1, 2] [3, 1, 2] 0
      = .ok { notInSolana := [3, 1], notInFaithful := [3, 1], hasDiff := true } := by
  decide

/-- C3, amended: for every slot list `A` sorted in ascending order (duplicates allowed) and
every epoch `e`, reconciling `A` against itself returns a report with both difference
lists empty and `hasDiff = false`. -/
theorem reconcile_self (A : List Nat) (e : Nat) (hA : A.Sorted (fun u v => u ≤ v)) :
    reconcile A A e = .ok { notInSolana := [], notInFaithful := [], hasDiff := false } := by
  have hnil : (removeIf A (notInEpoch e)).filter
      (fun block => !found (removeIf A (notInEpoch e)) block) = [] := by
    apply List.filter_eq_nil_iff.mpr
    intro x hx
    simp [found_of_sorted _ _ (removeIf_sorted_le A (notInEpoch e) hA), hx]
  have h := compare_eq (removeIf A (notInEpoch e)) (removeIf A (notInEpoch e))
  rw [hnil] at h
  exact h

/-- Witness of C3 (amended) at `A = [5, 5, 10, 432000]`, epoch 0. -/
theorem reconcile_self_witness :
    List.Sorted (fun u v => u ≤ v) [5, 5, 10, 432000] ∧
    reconcile [5, 5, 10, 432000] [5, 5, 10, 432000] 0
      = .ok { notInSolana := [], notInFaithful := [], hasDiff := false } :=
  ⟨by decide, reconcile_self [5, 5, 10, 432000] 0 (by decide)⟩

/-- C4: for all slot lists `A` and `B` and every epoch `e`, both `reconcile A B e` and
`reconcile B A e` return a report, and the first list of either is the second list of the
other. -/
theorem reconcile_swap (A B : List Nat) (e : Nat) :
    ∃ r s, reconcile A B e = .ok r ∧ reconcile B A e = .ok s ∧
      r.notInSolana = s.notInFaithful ∧ r.notInFaithful = s.notInSolana :=
  ⟨_, _, compare_eq _ _, compare_eq _ _, rfl, rfl⟩

/-- C8: for every slot list sorted in ascending order and every slot `x`, `contains`
returns without an index-out-of-range fault, and returns true exactly when `x` occurs in
the list; the index found by `SearchUint64` is at most the length, and the answer is
false for the empty list and for an `x` greater than every element. -/
theorem contains_correct (slots : List Nat) (x : Nat) (hs : slots.Sorted (fun u v => u ≤ v)) :
    contains slots x = .ok (decide (x ∈ slots)) ∧
    (∃ i, SearchUint64 slots x = .ok i ∧ i ≤ slots.length) ∧
    contains [] x = .ok false ∧
    ((∀ y, y ∈ slots → y < x) → contains slots x = .ok false) := by
  refine ⟨contains_of_sorted slots x hs, ?_, ?_, ?_⟩
  · obtain ⟨r, hr, hle, _⟩ := SearchUint64_spec slots x
    exact ⟨r, hr, hle⟩
  · simpa using contains_of_sorted [] x List.sorted_nil
  · intro h
    rw [contains_of_sorted slots x hs]
    have : x ∉ slots := fun hm => Nat.lt_irrefl _ (h x hm)
    simp [this]

/-- Witness of C8 at `slots = [2, 4, 4, 9]`, `x = 10`, greater than every element. -/
theorem contains_correct_witness :
    List.Sorted (fun u v => u ≤ v) [2, 4, 4, 9] ∧
    contains [2, 4, 4, 9] 10 = .ok (decide (10 ∈ [2, 4, 4, 9])) ∧
    (∃ i, SearchUint64 [2, 4, 4, 9] 10 = .ok i ∧ i ≤ [2, 4, 4, 9].length) ∧
    contains [] 10 = .ok false ∧
    (∀ y, y ∈ [2, 4, 4, 9] → y < 10) ∧
    contains [2, 4, 4, 9] 10 = .ok false :=
  ⟨by decide, (contains_correct [2, 4, 4, 9] 10 (by decide)).1,
    (contains_correct [2, 4, 4, 9] 10 (by decide)).2.1,
    (contains_correct [2, 4, 4, 9] 10 (by decide)).2.2.1, by decide,
    (contains_correct [2, 4, 4, 9] 10 (by decide)).2.2.2 (by decide)⟩

/-! ## Claims on canonicalization -/

/-- C5: for every list `xs`, `uniqueBlocks xs` is strictly increasing (ascending, no
duplicate values) and a slot is in it if and only if it is in `xs`. -/
theorem uniqueBlocks_canonical (xs : List Nat) :
    (uniqueBlocks xs).Sorted (fun u v => u < v) ∧ (uniqueBlocks xs).Nodup ∧
      ∀ x, x ∈ uniqueBlocks xs ↔ x ∈ xs :=
  ⟨uniqueBlocks_sorted xs, List.Sorted.nodup (uniqueBlocks_sorted xs), mem_uniqueBlocks xs⟩

/-- C6: canonicalization is idempotent, `uniqueBlocks (uniqueBlocks xs) = uniqueBlocks xs`. -/
theorem uniqueBlocks_idempotent (xs : List Nat) :
    uniqueBlocks (uniqueBlocks xs) = uniqueBlocks xs :=
  uniqueBlocks_of_strict _ (uniqueBlocks_sorted xs)

/-- C7: canonicalization is order-insensitive, lists that are permutations of each other
have the same `uniqueBlocks`. -/
theorem uniqueBlocks_perm (xs ys : List Nat) (h : xs.Perm ys) :
    uniqueBlocks xs = uniqueBlocks ys := by
  unfold uniqueBlocks
  rw [sortSlice_unique ys (sortSlice xs) ((sortSlice_perm xs).trans h) (sortSlice_sorted xs)]

/-- Witness of C7 at `xs = [7, 3, 3, 1]`, `ys = [3, 1, 7, 3]`. -/
theorem uniqueBlocks_perm_witness :
    List.Perm [7, 3, 3, 1] [3, 1, 7, 3] ∧ uniqueBlocks [7, 3, 3, 1] = uniqueBlocks [3, 1, 7, 3] :=
  ⟨by decide, uniqueBlocks_perm [7, 3, 3, 1] [3, 1, 7, 3] (by decide)⟩

/-! ## Claims on the paginated fetch -/

/-- C9 as stated fails at the top of the `uint64` range: for `s = 2^64 - 2501` the range
`[s, s + 2500]` is a valid range ending at `2^64 - 1`, its third page would be
`[2^64 - 501, 2^64 - 1]`, but `startSlot + pageSize - 1` wraps to `498`, which is not above
`endSlot`, so the third request is for `(2^64 - 501, 498)`, however long the loop runs. -/
theorem fetch_windows_wrap :
    pageWindows (2 ^ 64 - 2501) (2 ^ 64 - 1)
      = [(2 ^ 64 - 2501, 2 ^ 64 - 1502), (2 ^ 64 - 1501, 2 ^ 64 - 502),
          (2 ^ 64 - 501, 2 ^ 64 - 1)] ∧
    ∀ fuel, ((getAllBlocksBetween (fuel + 3) (fun _ _ => (Except.ok [] : Except Unit BlocksResult))
        (2 ^ 64 - 2501) (2 ^ 64 - 1)).requests).take 3
      = [(2 ^ 64 - 2501, 2 ^ 64 - 1502), (2 ^ 64 - 1501, 2 ^ 64 - 502), (2 ^ 64 - 501, 498)] := by
  refine ⟨by decide, fun fuel => ?_⟩
  simp only [getAllBlocksBetween, fetchLoop, U64]
  norm_num
  obtain ⟨ws, h, _⟩ := fetchLoop_gen (fun _ _ => (Except.ok [] : Except Unit BlocksResult))
    18446744073709551615 fuel 499 [[], [], []]
    [(18446744073709549115, 18446744073709550114), (18446744073709550115, 18446744073709551114),
      (18446744073709551115, 498)]
  rw [h]
  simp

/-- C9, amended: for every `startSlot ≤ endSlot ≤ 2^64 - 1000` (no `uint64` addition wraps)
and a source that answers every request, `getAllBlocksBetween` returns, and the requests it
issued are exactly the windows `[startSlot + 1000*k, min(startSlot + 1000*k + 999, endSlot)]`
for `k = 0 .. (endSlot - startSlot) / 1000`, in that order: strictly increasing, each
starting one past the previous end, each inside the range and at most 1000 slots long, all
but the last exactly 1000 long, and every slot of `[startSlot, endSlot]` in exactly one of
them; for `endSlot = startSlot + 2500` they are the three windows `[s, s+999]`,
`[s+1000, s+1999]`, `[s+2000, s+2500]`. -/
theorem fetch_windows {ε : Type} (client : Source ε) (startSlot endSlot fuel : Nat)
    (hle : startSlot ≤ endSlot) (hend : endSlot ≤ 2 ^ 64 - 1000)
    (hans : ∀ a b, ∃ r, client a b = .ok r)
    (hfuel : (endSlot - startSlot) / 1000 + 1 ≤ fuel) :
    ∃ R out, getAllBlocksBetween fuel client startSlot endSlot = ⟨R, some (.ok out)⟩ ∧
      R = pageWindows startSlot endSlot ∧
      R.length = (endSlot - startSlot) / 1000 + 1 ∧
      (∀ k, k < (endSlot - startSlot) / 1000 + 1 →
        R[k]? = some (startSlot + 1000 * k, min (startSlot + 1000 * k + 999) endSlot)) ∧
      R.Pairwise (fun u v => u.2 < v.1) ∧
      (∀ k a b, R[k]? = some a → R[k + 1]? = some b → b.1 = a.2 + 1) ∧
      (∀ w, w ∈ R → w.1 ≤ w.2 ∧ w.2 - w.1 + 1 ≤ 1000 ∧ startSlot ≤ w.1 ∧ w.2 ≤ endSlot) ∧
      (∀ k w, k + 1 < R.length → R[k]? = some w → w.2 - w.1 + 1 = 1000) ∧
      (∀ x, startSlot ≤ x → x ≤ endSlot →
        ∃! k : Nat, ∃ w : Nat × Nat, R[k]? = some w ∧ w.1 ≤ x ∧ x ≤ w.2) ∧
      (endSlot = startSlot + 2500 →
        R = [(startSlot, startSlot + 999), (startSlot + 1000, startSlot + 1999),
          (startSlot + 2000, startSlot + 2500)]) := by
  have hlen := pageWindows_length startSlot endSlot hle
  obtain ⟨p1, p2, p3, p4, p5⟩ := pageWindows_partition startSlot endSlot hle
  refine ⟨_, _, getAllBlocksBetween_answered client startSlot endSlot fuel hend
    (fun w _ => hans w.1 w.2) (by rw [hlen]; exact hfuel), rfl, hlen,
    fun k hk => pageWindows_getElem? _ _ k hle hk, p1, p2, p3, p4, p5, ?_⟩
  intro he
  subst he
  have hz : (startSlot + 2500 - startSlot) / 1000 = 2 := by omega
  simp only [pageWindows, hle, if_true, hz, List.range_succ, List.range_zero, List.nil_append,
    List.cons_append, List.map_cons, List.map_nil]
  have m0 : min (startSlot + 1000 * 0 + 999) (startSlot + 2500) = startSlot + 999 := by omega
  have m1 : min (startSlot + 1000 * 1 + 999) (startSlot + 2500) = startSlot + 1999 := by omega
  have m2 : min (startSlot + 1000 * 2 + 999) (startSlot + 2500) = startSlot + 2500 := by omega
  rw [m0, m1, m2]
  simp

/-- Witness of C9 (amended) at `startSlot = 7`, `endSlot = 2507`, three iterations and a
source that answers every window with the first slot of the window. -/
theorem fetch_windows_witness :
    7 ≤ 2507 ∧ 2507 ≤ 2 ^ 64 - 1000 ∧
    (∀ a b : Nat, ∃ r, (fun a _ => (Except.ok [a] : Except Unit BlocksResult)) a b = .ok r) ∧
    (2507 - 7) / 1000 + 1 ≤ 3 ∧
    (getAllBlocksBetween 3 (fun a _ => (Except.ok [a] : Except Unit BlocksResult)) 7 2507).requests
      = [(7, 1006), (1007, 2006), (2007, 2507)] ∧
    (getAllBlocksBetween 3 (fun a _ => (Except.ok [a] : Except Unit BlocksResult)) 7 2507).returned
      = some (.ok [[7], [1007], [2007]]) := by
  refine ⟨by decide, by decide, fun a _ => ⟨[a], rfl⟩, by decide, ?_, by decide⟩
  obtain ⟨R, out, hrun, _, _, _, _, _, _, _, _, h2500⟩ :=
    fetch_windows (fun a _ => (Except.ok [a] : Except Unit BlocksResult)) 7 2507 3
      (by decide) (by decide) (fun a _ => ⟨[a], rfl⟩) (by decide)
  rw [hrun]
  exact h2500 rfl

/-- C10 as stated fails at the top of the `uint64` range: for epoch `2^57 - 1` the limits
are `2^64 - 432000` and `2^64 - 1`, `main` fetches `[2^64 - 432001, 2^64 - 1]`, and with
every request answered the call has not returned after any number of iterations, since
`end + 1` wraps to `0` and `startSlot <= endSlot` stays true. -/
theorem fetch_top_never_returns :
    CalcEpochLimits (2 ^ 57 - 1) = (2 ^ 64 - 432000, 2 ^ 64 - 1) ∧
    ¬ ∃ fuel res, (getAllBlocksBetween fuel (fun _ _ => (Except.ok [] : Except Unit BlocksResult))
        (2 ^ 64 - 432001) (2 ^ 64 - 1)).returned = some res := by
  refine ⟨by decide, ?_⟩
  rintro ⟨fuel, res, h⟩
  have hnone := fetchLoop_top_running (fun _ _ => (Except.ok [] : Except Unit BlocksResult))
    (2 ^ 64 - 1) (by unfold U64; omega) (fun _ _ => ⟨[], rfl⟩) fuel (2 ^ 64 - 432001) [] []
    (by unfold U64; omega)
  unfold getAllBlocksBetween at h
  rw [hnone] at h
  exact Option.noConfusion h

/-- C10, amended: for every fetch range and every source, as soon as an issued request
fails `getAllBlocksBetween` returns that error and no result list, the failing request is
the last one issued and every request before it was answered; and whenever it returns
without error, the list holds the answers of the issued requests in order, one per request.
When no `uint64` addition wraps (`endSlot ≤ 2^64 - 1000`) the call does return: if the source
fails on a window of the partition and answers the windows before it, the error of that
window is returned after requesting exactly the windows up to it; if the source answers
every window of the partition, the answers of all windows are returned in window order. -/
theorem fetch_abort_or_collect {ε : Type} (client : Source ε) (startSlot endSlot fuel : Nat) :
    (∀ v err, v ∈ (getAllBlocksBetween fuel client startSlot endSlot).requests →
      client v.1 v.2 = .error err →
      (getAllBlocksBetween fuel client startSlot endSlot).returned = some (.error err) ∧
      ∃ pre, (getAllBlocksBetween fuel client startSlot endSlot).requests = pre ++ [v] ∧
        ∀ u, u ∈ pre → ∃ b, client u.1 u.2 = .ok b) ∧
    (∀ out, (getAllBlocksBetween fuel client startSlot endSlot).returned = some (.ok out) →
      out.length = (getAllBlocksBetween fuel client startSlot endSlot).requests.length ∧
      out.map (fun b => (Except.ok b : Except ε BlocksResult))
        = (getAllBlocksBetween fuel client startSlot endSlot).requests.map
            (fun w => client w.1 w.2)) ∧
    (endSlot ≤ 2 ^ 64 - 1000 → (pageWindows startSlot endSlot).length ≤ fuel →
      (∀ pre w post err, pageWindows startSlot endSlot = pre ++ w :: post →
        (∀ u, u ∈ pre → ∃ b, client u.1 u.2 = .ok b) → client w.1 w.2 = .error err →
        getAllBlocksBetween fuel client startSlot endSlot = ⟨pre ++ [w], some (.error err)⟩) ∧
      ((∀ w, w ∈ pageWindows startSlot endSlot → ∃ b, client w.1 w.2 = .ok b) →
        ∃ out, getAllBlocksBetween fuel client startSlot endSlot
            = ⟨pageWindows startSlot endSlot, some (.ok out)⟩ ∧
          out.length = (pageWindows startSlot endSlot).length ∧
          out.map (fun b => (Except.ok b : Except ε BlocksResult))
            = (pageWindows startSlot endSlot).map (fun w => client w.1 w.2))) := by
  obtain ⟨ws, h1, h2, h3, h4⟩ := fetchLoop_gen client endSlot fuel startSlot [] []
  simp only [List.nil_append, List.map_nil] at h1 h3
  refine ⟨?_, ?_, ?_⟩
  · intro v err hv hverr
    unfold getAllBlocksBetween at hv ⊢
    rw [h1] at hv ⊢
    have hnotok : ¬ ∃ b, client v.1 v.2 = .ok b := by
      rintro ⟨b, hb⟩
      rw [hb] at hverr
      exact Except.noConfusion hverr
    cases hr : (fetchLoop client endSlot fuel startSlot [] []).returned with
    | none => exact absurd ((h4 hr).2 v hv) hnotok
    | some r =>
      cases r with
      | ok res =>
        exfalso
        have hm : client v.1 v.2 ∈ ws.map (fun w => client w.1 w.2) :=
          List.mem_map.mpr ⟨v, hv, rfl⟩
        rw [← h3 res hr] at hm
        obtain ⟨b, _, hb⟩ := List.mem_map.mp hm
        exact hnotok ⟨b, hb.symm⟩
      | error err2 =>
        obtain ⟨pre, w, e, hw, hpre⟩ := h2 err2 hr
        rw [e] at hv
        rcases List.mem_append.mp hv with hin | hin
        · exact absurd (hpre v hin) hnotok
        · rw [List.mem_singleton] at hin
          subst hin
          rw [hw] at hverr
          simp only [Except.error.injEq] at hverr
          subst hverr
          exact ⟨rfl, pre, e, hpre⟩
  · intro out hout
    unfold getAllBlocksBetween at hout ⊢
    rw [h1]
    have e := h3 out hout
    exact ⟨by simpa using congrArg List.length e, e⟩
  · intro hend hfuel
    refine ⟨?_, ?_⟩
    · intro pre w post err hW hpre hw
      unfold getAllBlocksBetween
      rw [fetchLoop_eq_fetchWindows client endSlot hend fuel startSlot [] [] hfuel, hW,
        fetchWindows_first_error client pre w post err [] [] hpre hw]
      simp
    · intro hall
      refine ⟨_, getAllBlocksBetween_answered client startSlot endSlot fuel hend hall hfuel,
        by simp, map_answerOf client _ hall⟩

/-- Witness of C10 (amended): the range `[0, 2500]`, three iterations, and a source that
fails with error `7` on the window starting at slot `1000`; the fetch requests `[0, 999]`
and `[1000, 1999]` and returns the error. -/
theorem fetch_abort_or_collect_witness :
    (2500 ≤ 2 ^ 64 - 1000) ∧ (pageWindows 0 2500).length ≤ 3 ∧
    pageWindows 0 2500 = [(0, 999)] ++ (1000, 1999) :: [(2000, 2500)] ∧
    getAllBlocksBetween 3
        (fun a _ => if a = 1000 then (Except.error 7 : Except Nat BlocksResult) else .ok [a])
        0 2500
      = ⟨[(0, 999)] ++ [(1000, 1999)], some (.error 7)⟩ :=
  ⟨by decide, by decide, by decide,
    ((fetch_abort_or_collect
      (fun a _ => if a = 1000 then (Except.error 7 : Except Nat BlocksResult) else .ok [a])
      0 2500 3).2.2 (by decide) (by decide)).1 [(0, 999)] (1000, 1999) [(2000, 2500)] 7
      (by decide) (by intro u hu; rw [List.mem_singleton] at hu; subst hu; exact ⟨[0], rfl⟩)
      rfl⟩

/-! ## Epoch arithmetic -/

/-- While `(epoch + 1) * EpochLen` fits a `uint64`, no operation of `CalcEpochLimits` wraps. -/
theorem CalcEpochLimits_nowrap (epoch : Nat) (h : (epoch + 1) * 432000 ≤ 2 ^ 64) :
    CalcEpochLimits epoch = (epoch * 432000, epoch * 432000 + 431999) := by
  have h1 : epoch * 432000 % 2 ^ 64 = epoch * 432000 := Nat.mod_eq_of_lt (by omega)
  have h2 : (epoch * 432000 + 432000 - 1) % 2 ^ 64 = epoch * 432000 + 431999 := by
    rw [Nat.mod_eq_of_lt (by omega)]
    omega
  simp only [CalcEpochLimits, EpochLen, U64, h1, h2]

/-- The start of the epoch of a `uint64` slot is computed without wrapping. -/
theorem CalcEpochLimits_start_of_slot (s : Nat) (h : s < 2 ^ 64) :
    (CalcEpochLimits (CalcEpochForSlot s)).1 = s / 432000 * 432000 := by
  simp only [CalcEpochLimits, CalcEpochForSlot, EpochLen, U64]
  exact Nat.mod_eq_of_lt (by omega)

theorem fetchBounds_eq (epoch : Nat) :
    fetchBounds epoch =
      (if (CalcEpochLimits epoch).1 > 0 then (CalcEpochLimits epoch).1 - 1 else 0,
        (CalcEpochLimits epoch).2) := by
  have hlt : (CalcEpochLimits epoch).1 < 2 ^ 64 := by
    simp only [CalcEpochLimits, U64]
    exact Nat.mod_lt _ (by omega)
  by_cases h0 : (CalcEpochLimits epoch).1 > 0
  · have hm : ((CalcEpochLimits epoch).1 + (2 ^ 64 - 1)) % 2 ^ 64 = (CalcEpochLimits epoch).1 - 1 := by
      omega
    simp only [fetchBounds, U64, h0, if_true, hm]
  · have hz : (CalcEpochLimits epoch).1 = 0 := by omega
    simp [fetchBounds, hz]

/-! ## Claims on epoch arithmetic -/

/-- C11 as stated fails for epochs whose limits wrap: for epoch `2^57` the product
`epoch * EpochLen` is `0` modulo `2^64`, the limits are `(0, 431999)`, and both lie in epoch
`0`; for epoch `42700796466920` the start does not wrap but the stop wraps to `320383`,
which lies in epoch `0`. -/
theorem epoch_of_limits_wrap :
    CalcEpochLimits (2 ^ 57) = (0, 431999) ∧
    CalcEpochForSlot (CalcEpochLimits (2 ^ 57)).1 = 0 ∧
    CalcEpochForSlot (CalcEpochLimits (2 ^ 57)).2 = 0 ∧
    CalcEpochLimits 42700796466920 = (18446744073709440000, 320383) ∧
    CalcEpochForSlot (CalcEpochLimits 42700796466920).2 = 0 := by
  decide

/-- C11, amended: for every epoch `e` with `(e + 1) * 432000 ≤ 2^64` (the limits do not
wrap), with `(start, stop) = CalcEpochLimits e`, `CalcEpochForSlot start = e` and
`CalcEpochForSlot stop = e`. -/
theorem epoch_of_limits (e : Nat) (h : (e + 1) * 432000 ≤ 2 ^ 64) :
    CalcEpochForSlot (CalcEpochLimits e).1 = e ∧ CalcEpochForSlot (CalcEpochLimits e).2 = e := by
  rw [CalcEpochLimits_nowrap e h]
  simp only [CalcEpochForSlot, EpochLen]
  omega

/-- Witness of C11 (amended) at the last epoch whose limits do not wrap. -/
theorem epoch_of_limits_witness :
    (42700796466919 + 1) * 432000 ≤ 2 ^ 64 ∧
    CalcEpochForSlot (CalcEpochLimits 42700796466919).1 = 42700796466919 ∧
    CalcEpochForSlot (CalcEpochLimits 42700796466919).2 = 42700796466919 :=
  ⟨by decide, epoch_of_limits 42700796466919 (by decide)⟩

/-- C12 as stated fails in the last, incomplete epoch of the `uint64` range: the slot
`2^64 - 1` is in epoch `42700796466920`, whose stop wraps to `320383`, below the slot. -/
theorem limits_contain_slot_wrap :
    CalcEpochForSlot (2 ^ 64 - 1) = 42700796466920 ∧
    CalcEpochLimits (CalcEpochForSlot (2 ^ 64 - 1)) = (18446744073709440000, 320383) ∧
    ¬ (2 ^ 64 - 1 ≤ (CalcEpochLimits (CalcEpochForSlot (2 ^ 64 - 1))).2) := by
  decide

/-- C12, amended: for every `uint64` slot `s`, with
`(start, stop) = CalcEpochLimits (CalcEpochForSlot s)`, `start ≤ s`; and `s ≤ stop` for every
slot below `18446744073709440000 = 42700796466920 * 432000`, the start of the last,
incomplete epoch. -/
theorem limits_contain_slot (s : Nat) (h : s < 2 ^ 64) :
    (CalcEpochLimits (CalcEpochForSlot s)).1 ≤ s ∧
    (s < 18446744073709440000 → s ≤ (CalcEpochLimits (CalcEpochForSlot s)).2) := by
  refine ⟨?_, ?_⟩
  · rw [CalcEpochLimits_start_of_slot s h]
    omega
  · intro hs
    rw [CalcEpochLimits_nowrap (CalcEpochForSlot s) (by simp only [CalcEpochForSlot, EpochLen]; omega)]
    simp only [CalcEpochForSlot, EpochLen]
    omega

/-- Witness of C12 (amended) at the slot `18446744073709439999`, the last one of the last
complete epoch. -/
theorem limits_contain_slot_witness :
    18446744073709439999 < 2 ^ 64 ∧ 18446744073709439999 < 18446744073709440000 ∧
    (CalcEpochLimits (CalcEpochForSlot 18446744073709439999)).1 ≤ 18446744073709439999 ∧
    18446744073709439999 ≤ (CalcEpochLimits (CalcEpochForSlot 18446744073709439999)).2 :=
  ⟨by decide, by decide, (limits_contain_slot 18446744073709439999 (by decide)).1,
    (limits_contain_slot 18446744073709439999 (by decide)).2 (by decide)⟩

/-- C13 as stated fails for epochs whose limits wrap: epochs `0` and `2^57` are distinct
and have the same range `[0, 431999]`, so slot `5` lies in both and lies in the range of
epoch `2^57` though its epoch is `0`; and the range of epoch `42700796466920` runs from
`18446744073709440000` to `320383`, which is no range of 432000 slots. -/
theorem epoch_ranges_wrap :
    CalcEpochLimits 0 = (0, 431999) ∧ CalcEpochLimits (2 ^ 57) = (0, 431999) ∧
    CalcEpochForSlot 5 = 0 ∧
    ((CalcEpochLimits (2 ^ 57)).1 ≤ 5 ∧ 5 ≤ (CalcEpochLimits (2 ^ 57)).2) ∧
    CalcEpochLimits 42700796466920 = (18446744073709440000, 320383) := by
  decide

/-- C13, amended: for every epoch `e` with `(e + 1) * 432000 ≤ 2^64` (the limits do not
wrap), the range of `e` has exactly 432000 slots, the start of epoch `e + 1` is the stop of
`e` plus one, a slot `s` lies in `[start e, stop e]` if and only if `CalcEpochForSlot s = e`,
and no slot lies in the range of `e` and in the range of another such epoch. -/
theorem epoch_ranges_partition (e : Nat) (h : (e + 1) * 432000 ≤ 2 ^ 64) :
    (CalcEpochLimits e).1 ≤ (CalcEpochLimits e).2 ∧
    (CalcEpochLimits e).2 - (CalcEpochLimits e).1 + 1 = 432000 ∧
    (CalcEpochLimits (e + 1)).1 = (CalcEpochLimits e).2 + 1 ∧
    (∀ s, ((CalcEpochLimits e).1 ≤ s ∧ s ≤ (CalcEpochLimits e).2) ↔ CalcEpochForSlot s = e) ∧
    (∀ e2 s, (e2 + 1) * 432000 ≤ 2 ^ 64 → e ≠ e2 →
      ¬ (((CalcEpochLimits e).1 ≤ s ∧ s ≤ (CalcEpochLimits e).2) ∧
        ((CalcEpochLimits e2).1 ≤ s ∧ s ≤ (CalcEpochLimits e2).2))) := by
  have hnext : (CalcEpochLimits (e + 1)).1 = (e + 1) * 432000 := by
    simp only [CalcEpochLimits, EpochLen, U64]
    exact Nat.mod_eq_of_lt (by omega)
  rw [hnext, CalcEpochLimits_nowrap e h]
  refine ⟨by simp, by simp, by simp only; omega, ?_, ?_⟩
  · intro s
    simp only [CalcEpochForSlot, EpochLen]
    omega
  · intro e2 s h2 hne
    rw [CalcEpochLimits_nowrap e2 h2]
    simp only
    omega

/-- Witness of C13 (amended) at epoch 1, against epoch 2 and slot 863999. -/
theorem epoch_ranges_partition_witness :
    (1 + 1) * 432000 ≤ 2 ^ 64 ∧ (2 + 1) * 432000 ≤ 2 ^ 64 ∧ 1 ≠ 2 ∧
    (CalcEpochLimits 1).2 - (CalcEpochLimits 1).1 + 1 = 432000 ∧
    (CalcEpochLimits (1 + 1)).1 = (CalcEpochLimits 1).2 + 1 ∧
    ¬ (((CalcEpochLimits 1).1 ≤ 863999 ∧ 863999 ≤ (CalcEpochLimits 1).2) ∧
      ((CalcEpochLimits 2).1 ≤ 863999 ∧ 863999 ≤ (CalcEpochLimits 2).2)) :=
  ⟨by decide, by decide, by decide, (epoch_ranges_partition 1 (by decide)).2.1,
    (epoch_ranges_partition 1 (by decide)).2.2.1,
    (epoch_ranges_partition 1 (by decide)).2.2.2.2 2 863999 (by decide) (by decide)⟩

/-- C15 as stated fails for an epoch whose stop wraps: for epoch `42700796466920` the
limits are `(18446744073709440000, 320383)`, so the fetch bounds are
`(18446744073709439999, 320383)` and the start of the epoch is above the end of the fetch. -/
theorem fetch_bounds_wrap :
    CalcEpochLimits 42700796466920 = (18446744073709440000, 320383) ∧
    fetchBounds 42700796466920 = (18446744073709439999, 320383) ∧
    ¬ ((CalcEpochLimits 42700796466920).1 ≤ (CalcEpochLimits 42700796466920).2) := by
  decide

/-- C15, amended: for every epoch, with `(epochStart, epochStop) = CalcEpochLimits epoch`,
the fetch bounds of `main` are `start = epochStart - 1` when `epochStart > 0` and `start = 0`
when `epochStart = 0`, and `end = epochStop`; the decrement does not underflow and
`start ≤ epochStart`.  When `(epoch + 1) * 432000 ≤ 2^64` (the limits do not wrap) also
`epochStart ≤ epochStop = end`, so every slot of the epoch lies inside the fetched range. -/
theorem fetch_bounds (epoch : Nat) :
    (fetchBounds epoch).1
      = (if (CalcEpochLimits epoch).1 > 0 then (CalcEpochLimits epoch).1 - 1 else 0) ∧
    (fetchBounds epoch).2 = (CalcEpochLimits epoch).2 ∧
    ((CalcEpochLimits epoch).1 > 0 → (fetchBounds epoch).1 + 1 = (CalcEpochLimits epoch).1) ∧
    (fetchBounds epoch).1 ≤ (CalcEpochLimits epoch).1 ∧
    ((epoch + 1) * 432000 ≤ 2 ^ 64 →
      (CalcEpochLimits epoch).1 ≤ (CalcEpochLimits epoch).2 ∧
      ∀ s, (CalcEpochLimits epoch).1 ≤ s → s ≤ (CalcEpochLimits epoch).2 →
        (fetchBounds epoch).1 ≤ s ∧ s ≤ (fetchBounds epoch).2) := by
  rw [fetchBounds_eq]
  refine ⟨rfl, rfl, ?_, ?_, ?_⟩
  · intro h0
    simp only [h0, if_true]
    omega
  · simp only
    split <;> omega
  · intro h
    rw [CalcEpochLimits_nowrap epoch h]
    refine ⟨by simp, fun s h1 h2 => ?_⟩
    simp only at h1 h2 ⊢
    split <;> omega

/-- Witness of C15 (amended) at epoch 1 and slot 432000. -/
theorem fetch_bounds_witness :
    (CalcEpochLimits 1).1 > 0 ∧ (1 + 1) * 432000 ≤ 2 ^ 64 ∧
    (CalcEpochLimits 1).1 ≤ 432000 ∧ 432000 ≤ (CalcEpochLimits 1).2 ∧
    fetchBounds 1 = (431999, 863999) ∧
    (fetchBounds 1).1 + 1 = (CalcEpochLimits 1).1 ∧
    ((fetchBounds 1).1 ≤ 432000 ∧ 432000 ≤ (fetchBounds 1).2) :=
  ⟨by decide, by decide, by decide, by decide, by decide,
    (fetch_bounds 1).2.2.1 (by decide),
    ((fetch_bounds 1).2.2.2.2 (by decide)).2 432000 (by decide) (by decide)⟩

/-! ## Flattening and the lower bound -/

theorem append_loop (blocksResult out : List Nat) :
    blocksResult.foldl (fun out block => out ++ [block]) out = out ++ blocksResult := by
  induction blocksResult generalizing out with
  | nil => simp
  | cons b bs ih => simp [ih]

theorem flatten_loop (blocks : List BlocksResult) (out : List Nat) :
    blocks.foldl (fun out blocksResult => blocksResult.foldl (fun out block => out ++ [block]) out)
      out = out ++ blocks.flatten := by
  induction blocks generalizing out with
  | nil => simp
  | cons r rs ih =>
    rw [List.foldl_cons, ih, append_loop, List.flatten_cons, List.append_assoc]

theorem reduceBlocks_eq (blocks : List BlocksResult) :
    reduceBlocks blocks = uniqueBlocks blocks.flatten := by
  unfold reduceBlocks
  rw [flatten_loop]
  simp

theorem getD_of_getElem? (a : List Nat) (k v : Nat) (h : a[k]? = some v) : a.getD k 0 = v := by
  obtain ⟨hk, e⟩ := List.getElem?_eq_some_iff.mp h
  rw [List.getD_eq_getElem _ _ hk]
  exact e

/-! ## More claims -/

/-- C16: for every list `a` sorted in ascending order and every `x`, `SearchUint64 a x`
returns an index `i` with `0 ≤ i ≤ len(a)` such that every element before `i` is `< x` and
every element at or after `i` is `≥ x`; `i = len(a)` when all elements are `< x`. -/
theorem search_lower_bound (a : List Nat) (x : Nat) (hs : a.Sorted (fun u v => u ≤ v)) :
    ∃ i, SearchUint64 a x = .ok i ∧ 0 ≤ i ∧ i ≤ a.length ∧
      (∀ k v, a[k]? = some v → k < i → v < x) ∧
      (∀ k v, a[k]? = some v → i ≤ k → x ≤ v) ∧
      ((∀ v, v ∈ a → v < x) → i = a.length) := by
  obtain ⟨r, hr, hle, h3⟩ := SearchUint64_spec a x
  obtain ⟨hlo, hhi⟩ := h3 (getD_mono_of_sorted a hs)
  refine ⟨r, hr, Nat.zero_le _, hle, ?_, ?_, ?_⟩
  · intro k v hv hk
    rw [← getD_of_getElem? a k v hv]
    exact hlo k hk
  · intro k v hv hk
    rw [← getD_of_getElem? a k v hv]
    exact hhi k hk (List.getElem?_eq_some_iff.mp hv).1
  · intro hall
    by_contra hne
    have hlt : r < a.length := by omega
    have h1 := hhi r (le_refl _) hlt
    have h2 := hall (a.getD r 0) (by rw [List.getD_eq_getElem _ _ hlt]; exact List.getElem_mem _)
    omega

/-- Witness of C16 at `a = [2, 4, 4, 9]` and `x = 10`, above every element. -/
theorem search_lower_bound_witness :
    List.Sorted (fun u v => u ≤ v) [2, 4, 4, 9] ∧ (∀ v, v ∈ [2, 4, 4, 9] → v < 10) ∧
    ∃ i, SearchUint64 [2, 4, 4, 9] 10 = .ok i ∧ i = [2, 4, 4, 9].length := by
  obtain ⟨i, h1, _, _, _, _, h6⟩ := search_lower_bound [2, 4, 4, 9] 10 (by decide)
  exact ⟨by decide, by decide, i, h1, h6 (by decide)⟩

/-- C17: for every sequence of window results, `reduceBlocks` returns `uniqueBlocks` of
their concatenation in window order, a strictly increasing list in which a slot occurs if
and only if it occurs in at least one window result; the cache lines `main` writes are the
decimal strings of that strictly increasing, duplicate-free list, in order. -/
theorem reduceBlocks_canonical (blocks : List BlocksResult) :
    reduceBlocks blocks = uniqueBlocks blocks.flatten ∧
    (reduceBlocks blocks).Sorted (fun u v => u < v) ∧
    (reduceBlocks blocks).Nodup ∧
    (∀ x, x ∈ reduceBlocks blocks ↔ ∃ r, r ∈ blocks ∧ x ∈ r) ∧
    cacheLines (reduceBlocks blocks) = (uniqueBlocks blocks.flatten).map FormatUint := by
  rw [reduceBlocks_eq]
  refine ⟨rfl, uniqueBlocks_sorted _, List.Sorted.nodup (uniqueBlocks_sorted _), ?_, rfl⟩
  intro x
  rw [mem_uniqueBlocks, List.mem_flatten]

/-- C18: for every slot list `xs` and predicate `p`, `removeIf xs p` is the subsequence of
`xs`, in the original order, of exactly the elements for which `p` is false; the epoch
filter keeps exactly the slots of the epoch, and maps a strictly increasing list to a
strictly increasing list, on which `contains` decides membership. -/
theorem removeIf_subsequence (xs : List Nat) (p : Nat → Bool) (e : Nat) :
    removeIf xs p = xs.filter (fun x => !p x) ∧
    (removeIf xs p).Sublist xs ∧
    (∀ x, x ∈ removeIf xs p ↔ x ∈ xs ∧ p x = false) ∧
    (∀ x, x ∈ removeIf xs (notInEpoch e) ↔ x ∈ xs ∧ CalcEpochForSlot x = e) ∧
    (xs.Sorted (fun u v => u < v) →
      (removeIf xs (notInEpoch e)).Sorted (fun u v => u < v) ∧
      ∀ x, contains (removeIf xs (notInEpoch e)) x
        = .ok (decide (x ∈ removeIf xs (notInEpoch e)))) := by
  refine ⟨removeIf_eq_filter xs p, ?_, ?_, ?_, ?_⟩
  · rw [removeIf_eq_filter]
    exact List.filter_sublist xs
  · intro x
    rw [removeIf_eq_filter]
    simp [List.mem_filter]
  · intro x
    rw [removeIf_notInEpoch]
    simp [List.mem_filter]
  · intro hs
    have h := removeIf_sorted_lt xs (notInEpoch e) hs
    exact ⟨h, fun x => contains_of_sorted _ x (sorted_le_of_lt _ h)⟩

/-- Witness of C18 at `xs = [431999, 432000, 432005, 864000]` and epoch 1. -/
theorem removeIf_subsequence_witness :
    List.Sorted (fun u v => u < v) [431999, 432000, 432005, 864000] ∧
    removeIf [431999, 432000, 432005, 864000] (notInEpoch 1) = [432000, 432005] ∧
    (removeIf [431999, 432000, 432005, 864000] (notInEpoch 1)).Sorted (fun u v => u < v) ∧
    contains (removeIf [431999, 432000, 432005, 864000] (notInEpoch 1)) 432005
      = .ok (decide (432005 ∈ removeIf [431999, 432000, 432005, 864000] (notInEpoch 1))) :=
  ⟨by decide, by decide,
    ((removeIf_subsequence [431999, 432000, 432005, 864000] (notInEpoch 1) 1).2.2.2.2
      (by decide)).1,
    ((removeIf_subsequence [431999, 432000, 432005, 864000] (notInEpoch 1) 1).2.2.2.2
      (by decide)).2 432005⟩

/-- C19: for every `startSlot` and `endSlot` with `endSlot ≤ 2^64 - 1000` and a source that
answers every request, the loop of `getAllBlocksBetween` terminates: when
`startSlot ≤ endSlot` it returns without error after exactly
`ceil((endSlot - startSlot + 1) / 1000)` requests, with one result per request, and when
`startSlot > endSlot` it issues no request and returns an empty result and no error. -/
theorem fetch_terminates {ε : Type} (client : Source ε) (startSlot endSlot : Nat)
    (hend : endSlot ≤ 2 ^ 64 - 1000) (hans : ∀ a b, ∃ r, client a b = .ok r) :
    (startSlot ≤ endSlot →
      1000 * ((endSlot - startSlot + 1 + 999) / 1000 - 1) < endSlot - startSlot + 1 ∧
      endSlot - startSlot + 1 ≤ 1000 * ((endSlot - startSlot + 1 + 999) / 1000) ∧
      ∀ fuel, (endSlot - startSlot + 1 + 999) / 1000 ≤ fuel →
        ∃ R out, getAllBlocksBetween fuel client startSlot endSlot = ⟨R, some (.ok out)⟩ ∧
          R.length = (endSlot - startSlot + 1 + 999) / 1000 ∧
          out.length = (endSlot - startSlot + 1 + 999) / 1000) ∧
    (startSlot > endSlot →
      ∀ fuel, getAllBlocksBetween fuel client startSlot endSlot = ⟨[], some (.ok [])⟩) := by
  refine ⟨?_, ?_⟩
  · intro hle
    have hlen := pageWindows_length startSlot endSlot hle
    have hn : (endSlot - startSlot + 1 + 999) / 1000 = (endSlot - startSlot) / 1000 + 1 := by
      omega
    refine ⟨by omega, by omega, fun fuel hfuel => ?_⟩
    refine ⟨_, _, getAllBlocksBetween_answered client startSlot endSlot fuel hend
      (fun w _ => hans w.1 w.2) (by omega), by omega, ?_⟩
    rw [List.length_map]
    omega
  · intro hgt fuel
    have hW := pageWindows_of_gt startSlot endSlot (by omega)
    have h := getAllBlocksBetween_answered client startSlot endSlot fuel hend
      (fun w _ => hans w.1 w.2) (by rw [hW]; exact Nat.zero_le _)
    rw [hW] at h
    exact h

/-- Witness of C19: the range `[7, 2507]` needs three requests, the range `[9, 3]` none. -/
theorem fetch_terminates_witness :
    2507 ≤ 2 ^ 64 - 1000 ∧ 3 ≤ 2 ^ 64 - 1000 ∧
    (∀ a b : Nat, ∃ r, (fun a _ => (Except.ok [a] : Except Unit BlocksResult)) a b = .ok r) ∧
    7 ≤ 2507 ∧ (2507 - 7 + 1 + 999) / 1000 ≤ 3 ∧ 9 > 3 ∧
    (∃ R out,
      getAllBlocksBetween 3 (fun a _ => (Except.ok [a] : Except Unit BlocksResult)) 7 2507
        = ⟨R, some (.ok out)⟩ ∧
      R.length = (2507 - 7 + 1 + 999) / 1000 ∧ out.length = (2507 - 7 + 1 + 999) / 1000) ∧
    getAllBlocksBetween 5 (fun a _ => (Except.ok [a] : Except Unit BlocksResult)) 9 3
      = ⟨[], some (.ok [])⟩ :=
  ⟨by decide, by decide, fun a _ => ⟨[a], rfl⟩, by decide, by decide, by decide,
    ((fetch_terminates (fun a _ => (Except.ok [a] : Except Unit BlocksResult)) 7 2507
      (by decide) (fun a _ => ⟨[a], rfl⟩)).1 (by decide)).2.2 3 (by decide),
    (fetch_terminates (fun a _ => (Except.ok [a] : Except Unit BlocksResult)) 9 3
      (by decide) (fun a _ => ⟨[a], rfl⟩)).2 (by decide) 5⟩

/-! ## Parsing and printing decimal numbers -/

theorem digitOf_of_digit (c : Nat) (h : 48 ≤ c ∧ c ≤ 57) : digitOf c = some (c - 48) := by
  simp [digitOf, h]

theorem digitOf_of_not_digit (c : Nat) (h : ¬ (48 ≤ c ∧ c ≤ 57)) :
    digitOf c = none ∨ ∃ d, digitOf c = some d ∧ d ≥ 10 := by
  by_cases hl : 97 ≤ (c ||| 32) ∧ (c ||| 32) ≤ 122
  · right
    exact ⟨(c ||| 32) - 97 + 10, by simp [digitOf, h, hl], by omega⟩
  · left
    simp [digitOf, h, hl]

theorem parseUintLoop_not_digit (c : Nat) (cs : List Nat) (n : Nat)
    (h : ¬ (48 ≤ c ∧ c ≤ 57)) : parseUintLoop (c :: cs) n = .error .malformed := by
  rcases digitOf_of_not_digit c h with h0 | ⟨d, h1, h2⟩
  · simp [parseUintLoop, h0]
  · simp [parseUintLoop, h1, h2]

theorem decimal_loop_ge (cs : List Nat) :
    ∀ n, n ≤ cs.foldl (fun n c => 10 * n + (c - 48)) n := by
  induction cs with
  | nil => intro n; exact le_refl _
  | cons c cs ih =>
    intro n
    have := ih (10 * n + (c - 48))
    simp only [List.foldl_cons]
    omega

/-- The digit loop returns a value exactly on strings of decimal digits whose value fits
64 bits, and then returns that value. -/
theorem parseUintLoop_ok_iff (cs : List Nat) :
    ∀ n v, n < 2 ^ 64 →
      (parseUintLoop cs n = .ok v ↔
        (∀ c, c ∈ cs → isDigit c = true) ∧
          cs.foldl (fun n c => 10 * n + (c - 48)) n = v ∧ v < 2 ^ 64) := by
  induction cs with
  | nil =>
    intro n v hn
    simp only [parseUintLoop, List.foldl_nil, Except.ok.injEq]
    constructor
    · intro h; subst h; exact ⟨by simp, rfl, hn⟩
    · intro h; exact h.2.1
  | cons c cs ih =>
    intro n v hn
    by_cases hd : 48 ≤ c ∧ c ≤ 57
    · have hmono := decimal_loop_ge cs (10 * n + (c - 48))
      have hd10 : ¬ (c - 48 ≥ 10) := by omega
      simp only [parseUintLoop, digitOf_of_digit c hd, hd10, if_false, U64, List.foldl_cons]
      by_cases hcut : n ≥ (2 ^ 64 - 1) / 10 + 1
      · simp only [hcut, if_true]
        constructor
        · intro h; exact Except.noConfusion h
        · rintro ⟨_, hv, hlt⟩
          omega
      · simp only [hcut, if_false]
        by_cases hwrap : 10 * n + (c - 48) < 2 ^ 64
        · have e1 : (n * 10 % 2 ^ 64 + (c - 48)) % 2 ^ 64 = 10 * n + (c - 48) := by omega
          have e2 : ¬ ((n * 10 % 2 ^ 64 + (c - 48)) % 2 ^ 64 < n * 10 % 2 ^ 64 ∨
              (n * 10 % 2 ^ 64 + (c - 48)) % 2 ^ 64 > 2 ^ 64 - 1) := by omega
          rw [if_neg e2, e1, ih _ v hwrap]
          constructor
          · rintro ⟨h1, h2⟩
            refine ⟨?_, h2⟩
            intro x hx
            rcases List.mem_cons.mp hx with h | h
            · subst h; simp [isDigit, hd]
            · exact h1 x h
          · rintro ⟨h1, h2⟩
            exact ⟨fun x hx => h1 x (List.mem_cons_of_mem _ hx), h2⟩
        · have e2 : ((n * 10 % 2 ^ 64 + (c - 48)) % 2 ^ 64 < n * 10 % 2 ^ 64 ∨
              (n * 10 % 2 ^ 64 + (c - 48)) % 2 ^ 64 > 2 ^ 64 - 1) := by omega
          rw [if_pos e2]
          constructor
          · intro h; exact Except.noConfusion h
          · rintro ⟨_, hv, hlt⟩
            omega
    · rw [parseUintLoop_not_digit c cs n hd]
      constructor
      · intro h; exact Except.noConfusion h
      · rintro ⟨h1, _⟩
        have := h1 c (List.mem_cons_self _ _)
        simp [isDigit] at this
        omega

/-- What parses as a base-10 unsigned 64-bit integer: a non-empty string of decimal digits
whose value is below `2^64`. -/
theorem ParseUint_ok_iff (s : Line) (v : Nat) :
    ParseUint s = .ok v ↔
      s ≠ [] ∧ (∀ c, c ∈ s → isDigit c = true) ∧ decimalValue s = v ∧ v < 2 ^ 64 := by
  unfold ParseUint decimalValue
  by_cases h : s = []
  · simp [h]
  · rw [if_neg h, parseUintLoop_ok_iff s 0 v (by omega)]
    simp [h]

theorem formatLoop_ne_nil (fuel u : Nat) (acc : List Nat) : formatLoop fuel u acc ≠ [] := by
  induction fuel generalizing u acc with
  | zero => simp [formatLoop]
  | succ fuel ih =>
    unfold formatLoop
    split
    · exact ih _ _
    · simp

theorem formatLoop_digits (fuel : Nat) :
    ∀ u acc, (∀ c, c ∈ acc → isDigit c = true) →
      ∀ c, c ∈ formatLoop fuel u acc → isDigit c = true := by
  induction fuel with
  | zero =>
    intro u acc hacc c hc
    simp only [formatLoop, List.mem_cons] at hc
    rcases hc with h | h
    · subst h; simp [isDigit]; omega
    · exact hacc c h
  | succ fuel ih =>
    intro u acc hacc c hc
    unfold formatLoop at hc
    split at hc
    · refine ih _ _ ?_ c hc
      intro x hx
      rcases List.mem_cons.mp hx with h | h
      · subst h; simp [isDigit]; omega
      · exact hacc x h
    · rcases List.mem_cons.mp hc with h | h
      · subst h; simp [isDigit]; omega
      · exact hacc c h

theorem formatLoop_value (fuel : Nat) :
    ∀ u acc, u ≤ fuel →
      (formatLoop fuel u acc).foldl (fun n c => 10 * n + (c - 48)) 0
        = acc.foldl (fun n c => 10 * n + (c - 48)) u := by
  induction fuel with
  | zero =>
    intro u acc hu
    have : u = 0 := by omega
    subst this
    simp [formatLoop]
  | succ fuel ih =>
    intro u acc hu
    unfold formatLoop
    split
    · rw [ih _ _ (by omega), List.foldl_cons]
      congr 1
      omega
    · rw [List.foldl_cons]
      congr 1
      omega

/-- Parsing the decimal string of a `uint64` gives the number back. -/
theorem ParseUint_FormatUint (i : Nat) (h : i < 2 ^ 64) : ParseUint (FormatUint i) = .ok i := by
  rw [ParseUint_ok_iff]
  refine ⟨formatLoop_ne_nil _ _ _, formatLoop_digits _ _ _ (by simp), ?_, h⟩
  unfold decimalValue FormatUint
  rw [formatLoop_value i i [] (le_refl _)]
  rfl

/-! ## Loading a slot list -/

theorem loadLoop_ok (lines : List Line) :
    ∀ out, (∀ line, line ∈ lines → line ≠ [] → ∃ v, ParseUint line = .ok v) →
      loadLoop lines out = .ok (out ++ lineValues lines) := by
  induction lines with
  | nil => intro out _; simp [loadLoop, lineValues]
  | cons line rest ih =>
    intro out h
    have hrest := fun o => ih o (fun l hl => h l (List.mem_cons_of_mem _ hl))
    by_cases he : line = []
    · simp only [loadLoop, he, if_true, hrest]
      simp [lineValues]
    · obtain ⟨v, hv⟩ := h line (List.mem_cons_self _ _) he
      simp only [loadLoop, he, if_false, hv, hrest]
      simp [lineValues, he, hv]

theorem loadLoop_error (lines : List Line) :
    ∀ out, (∃ line, line ∈ lines ∧ line ≠ [] ∧ ∀ v, ParseUint line ≠ .ok v) →
      ∃ err, loadLoop lines out = .error (.parse err) := by
  induction lines with
  | nil => rintro out ⟨l, hl, _⟩; exact absurd hl (List.not_mem_nil _)
  | cons line rest ih =>
    rintro out ⟨l, hl, hne, hbad⟩
    by_cases he : line = []
    · have hl2 : l ∈ rest := by
        rcases List.mem_cons.mp hl with h | h
        · exact absurd (h.trans he) hne
        · exact h
      simp only [loadLoop, he, if_true]
      exact ih out ⟨l, hl2, hne, hbad⟩
    · cases hp : ParseUint line with
      | error err => exact ⟨err, by simp [loadLoop, he, hp]⟩
      | ok v =>
        have hl2 : l ∈ rest := by
          rcases List.mem_cons.mp hl with h | h
          · subst h; exact absurd hp (hbad v)
          · exact h
        simp only [loadLoop, he, if_false, hp]
        exact ih _ ⟨l, hl2, hne, hbad⟩

theorem mem_lineValues (lines : List Line) (x : Nat) :
    x ∈ lineValues lines ↔ ∃ line, line ∈ lines ∧ line ≠ [] ∧ ParseUint line = .ok x := by
  unfold lineValues
  rw [List.mem_filterMap]
  constructor
  · rintro ⟨line, hl, h⟩
    by_cases he : line = []
    · simp [he] at h
    · cases hp : ParseUint line with
      | error err => simp [he, hp] at h
      | ok v =>
        simp only [he, if_false, hp, Option.some.injEq] at h
        subst h
        exact ⟨line, hl, he, hp⟩
  · rintro ⟨line, hl, he, hp⟩
    exact ⟨line, hl, by simp [he, hp]⟩

theorem lineValues_cacheLines (xs : List Nat) (h : ∀ x, x ∈ xs → x < 2 ^ 64) :
    lineValues (cacheLines xs) = xs := by
  induction xs with
  | nil => rfl
  | cons x xs ih =>
    have hx := ParseUint_FormatUint x (h x (List.mem_cons_self _ _))
    have hne : FormatUint x ≠ [] := formatLoop_ne_nil _ _ _
    have ih2 := ih (fun y hy => h y (List.mem_cons_of_mem _ hy))
    unfold lineValues cacheLines at ih2 ⊢
    simp only [List.map_cons, List.filterMap_cons, hne, if_false, hx]
    rw [ih2]

/-- Loading the cache lines of a strictly increasing list of `uint64` gives the list back. -/
theorem load_cacheLines (xs : List Nat) (hs : xs.Sorted (fun u v => u < v))
    (h : ∀ x, x ∈ xs → x < 2 ^ 64) :
    loadBlockListFromFile ⟨false, cacheLines xs, false⟩ = .ok xs := by
  have hall : ∀ line, line ∈ cacheLines xs → line ≠ [] → ∃ v, ParseUint line = .ok v := by
    intro line hl _
    obtain ⟨x, hx, e⟩ := List.mem_map.mp hl
    exact ⟨x, by rw [← e]; exact ParseUint_FormatUint x (h x hx)⟩
  simp only [loadBlockListFromFile, loadLoop_ok _ [] hall, List.nil_append,
    lineValues_cacheLines xs h, uniqueBlocks_of_strict xs hs]
  rfl

theorem loadLoop_skip_empty (lines : List Line) :
    ∀ out, loadLoop lines out = loadLoop (lines.filter (fun line => decide (line ≠ []))) out := by
  induction lines with
  | nil => intro out; rfl
  | cons line rest ih =>
    intro out
    by_cases he : line = []
    · simp only [loadLoop, he, if_true]
      rw [ih out]
      simp
    · rw [List.filter_cons_of_pos (by simpa using he)]
      simp only [loadLoop, he, if_false]
      cases ParseUint line with
      | error err => rfl
      | ok v => exact ih _

/-! ## Claims on the slot-list files -/

/-- C14: for every sequence of lines read from a slot-list file (the file opens and the
scanner reports no error), `loadBlockListFromFile` gives the same result as on the file
without its empty lines; if some non-empty line does not parse as a base-10 unsigned 64-bit
integer it returns a parse error and no list; otherwise it returns `uniqueBlocks` of the
parsed values, a strictly increasing list that holds exactly the slots named by the
non-empty lines.  A line parses exactly when it is a non-empty string of decimal digits
whose value is below `2^64`. -/
theorem load_lines (file : SlotFile) (hopen : file.openFails = false)
    (hscan : file.scanFails = false) :
    loadBlockListFromFile file
      = loadBlockListFromFile
          { file with lines := file.lines.filter (fun line => decide (line ≠ [])) } ∧
    ((∃ line, line ∈ file.lines ∧ line ≠ [] ∧ ∀ v, ParseUint line ≠ .ok v) →
      ∃ err, loadBlockListFromFile file = .error (.parse err)) ∧
    ((∀ line, line ∈ file.lines → line ≠ [] → ∃ v, ParseUint line = .ok v) →
      loadBlockListFromFile file = .ok (uniqueBlocks (lineValues file.lines)) ∧
      (uniqueBlocks (lineValues file.lines)).Sorted (fun u v => u < v) ∧
      ∀ x, x ∈ uniqueBlocks (lineValues file.lines) ↔
        ∃ line, line ∈ file.lines ∧ line ≠ [] ∧ ParseUint line = .ok x) ∧
    (∀ line v, ParseUint line = .ok v ↔
      line ≠ [] ∧ (∀ c, c ∈ line → isDigit c = true) ∧ decimalValue line = v ∧ v < 2 ^ 64) := by
  refine ⟨?_, ?_, ?_, ParseUint_ok_iff⟩
  · simp only [loadBlockListFromFile, loadLoop_skip_empty file.lines []]
  · intro hbad
    obtain ⟨err, herr⟩ := loadLoop_error file.lines [] hbad
    exact ⟨err, by simp [loadBlockListFromFile, hopen, herr]⟩
  · intro hall
    refine ⟨?_, uniqueBlocks_sorted _, fun x => ?_⟩
    · simp [loadBlockListFromFile, hopen, hscan, loadLoop_ok file.lines [] hall]
    · rw [mem_uniqueBlocks, mem_lineValues]

/-- Witness of C14: the lines `5`, empty, `1x`, `5` are rejected, and the lines `5`, empty,
`10`, `5` load as `[5, 10]`. -/
theorem load_lines_witness :
    (∃ line, line ∈ [[53], [], [49, 120], [53]] ∧ line ≠ [] ∧ ∀ v, ParseUint line ≠ .ok v) ∧
    (∃ err, loadBlockListFromFile ⟨false, [[53], [], [49, 120], [53]], false⟩
      = .error (.parse err)) ∧
    (∀ line, line ∈ [[53], [], [49, 48], [53]] → line ≠ [] → ∃ v, ParseUint line = .ok v) ∧
    loadBlockListFromFile ⟨false, [[53], [], [49, 48], [53]], false⟩
      = .ok (uniqueBlocks (lineValues [[53], [], [49, 48], [53]])) ∧
    uniqueBlocks (lineValues [[53], [], [49, 48], [53]]) = [5, 10] := by
  have hbad : ∃ line, line ∈ [[53], [], [49, 120], [53]] ∧ line ≠ [] ∧
      ∀ v, ParseUint line ≠ .ok v :=
    ⟨[49, 120], by decide, by decide, fun v h => by
      have e : ParseUint [49, 120] = .error .malformed := by decide
      rw [e] at h
      exact Except.noConfusion h⟩
  have hgood : ∀ line, line ∈ [[53], [], [49, 48], [53]] → line ≠ [] →
      ∃ v, ParseUint line = .ok v := by
    intro line hl hne
    simp only [List.mem_cons, List.mem_singleton, List.not_mem_nil, or_false] at hl
    rcases hl with h | h | h | h
    · exact ⟨5, by rw [h]; decide⟩
    · exact absurd h hne
    · exact ⟨10, by rw [h]; decide⟩
    · exact ⟨5, by rw [h]; decide⟩
  exact ⟨hbad,
    (load_lines ⟨false, [[53], [], [49, 120], [53]], false⟩ rfl rfl).2.1 hbad, hgood,
    ((load_lines ⟨false, [[53], [], [49, 48], [53]], false⟩ rfl rfl).2.2.1 hgood).1,
    by decide⟩

/-- C20: for every strictly increasing list `xs` of `uint64` slots, the cache lines `main`
writes for `xs` (each slot in decimal on its own line) load back, through
`loadBlockListFromFile`, as exactly `xs`; hence reconciling any reference list against the
list loaded from the cache gives the same report as reconciling it against `xs`. -/
theorem cache_round_trip (xs : List Nat) (hs : xs.Sorted (fun u v => u < v))
    (hu : ∀ x, x ∈ xs → x < 2 ^ 64) :
    loadBlockListFromFile ⟨false, cacheLines xs, false⟩ = .ok xs ∧
    ∀ fromFaithful epoch, ∃ cached,
      loadBlockListFromFile ⟨false, cacheLines xs, false⟩ = .ok cached ∧
      reconcile fromFaithful cached epoch = reconcile fromFaithful xs epoch :=
  ⟨load_cacheLines xs hs hu, fun _ _ => ⟨xs, load_cacheLines xs hs hu, rfl⟩⟩

/-- Witness of C20 at `xs = [0, 431999, 18446744073709551615]`. -/
theorem cache_round_trip_witness :
    List.Sorted (fun u v => u < v) [0, 431999, 18446744073709551615] ∧
    (∀ x, x ∈ [0, 431999, 18446744073709551615] → x < 2 ^ 64) ∧
    loadBlockListFromFile ⟨false, cacheLines [0, 431999, 18446744073709551615], false⟩
      = .ok [0, 431999, 18446744073709551615] :=
  ⟨by decide, by decide,
    (cache_round_trip [0, 431999, 18446744073709551615] (by decide) (by decide)).1⟩

end SlotListCompare
